import Mathlib

/-! HAProxy configuration parser (`pkg/router/template/util/haproxy/config_parser.go`).

A shallow embedding of `ConfigParser` and of its query methods, followed by
the properties of the specification that were checked against it.

Modelling conventions.

* A Go `string` is a `List Char` (`Str`): the model covers the strings that
  are valid UTF-8.  For such strings the byte-wise `strings.HasPrefix` and
  `strings.Contains` coincide with their character-wise counterparts.
* A Go `[]string` is a `List Str`; the `nil` slice and the empty slice are
  both `[]`.
* A Go `map[string][]string` is a `GoMap`: a list of entries with pairwise
  distinct keys.  The position of an entry in the list carries no meaning
  for lookups; it is only the order in which a `range` loop happens to visit
  the entries.
* `os.Open` and the reads behind `bufio.Reader` are supplied by a
  `FileSystem`: opening may fail, and a file delivers its `data` and then
  the error `final` (`io.EOF` for a file that is read to its end).
-/

namespace Haproxy

/-! ## Strings -/

/-- A Go string, as its sequence of characters. -/
abbrev Str := List Char

/-- Go `unicode.IsSpace`: the characters with the Unicode White_Space property. -/
def isSpace (c : Char) : Bool :=
  let n := c.toNat
  (0x09 ≤ n && n ≤ 0x0D) || n == 0x20 || n == 0x85 || n == 0xA0 || n == 0x1680 ||
  (0x2000 ≤ n && n ≤ 0x200A) || n == 0x2028 || n == 0x2029 || n == 0x202F ||
  n == 0x205F || n == 0x3000

/-- Go `strings.TrimSpace`: removes leading and trailing white space. -/
def TrimSpace (s : Str) : Str :=
  ((s.dropWhile isSpace).reverse.dropWhile isSpace).reverse

/-- Go `strings.HasPrefix s pre`. -/
def HasPrefix (s pre : Str) : Bool :=
  pre.isPrefixOf s

/-- Go `strings.Contains s substr`: `substr` occurs in `s` at some offset. -/
def Contains : Str → Str → Bool
  | [], substr => substr.isPrefixOf []
  | c :: cs, substr => substr.isPrefixOf (c :: cs) || Contains cs substr

/-- Worker of `Fields`: `cur` is the field being read, reversed. -/
def fieldsAux : Str → Str → List Str
  | cur, [] => if cur.isEmpty then [] else [cur.reverse]
  | cur, c :: cs =>
    if isSpace c then
      if cur.isEmpty then fieldsAux [] cs else cur.reverse :: fieldsAux [] cs
    else fieldsAux (c :: cur) cs

/-- Go `strings.Fields`: the maximal runs of non-space characters. -/
def Fields (s : Str) : List Str :=
  fieldsAux [] s

/-! ## Constants -/

def commentChar : Str := ['#']
def globalKeyword : Str := ['g', 'l', 'o', 'b', 'a', 'l']
def defaultsKeyword : Str := ['d', 'e', 'f', 'a', 'u', 'l', 't', 's']
def frontendKeyword : Str := ['f', 'r', 'o', 'n', 't', 'e', 'n', 'd']
def backendKeyword : Str := ['b', 'a', 'c', 'k', 'e', 'n', 'd']

/-! ## Maps -/

/-- Keys of a list of map entries. -/
def keysOf (es : List (Str × List Str)) : List Str :=
  es.map Prod.fst

/-- Lookup in a list of entries: the value of the first entry with key `k`. -/
def lookupEntries : List (Str × List Str) → Str → Option (List Str)
  | [], _ => none
  | (k', v) :: rest, k => if k' = k then some v else lookupEntries rest k

/-- Assignment in a list of entries: replaces the value of key `k`, or adds
a new entry when the key is absent. -/
def setEntries : List (Str × List Str) → Str → List Str → List (Str × List Str)
  | [], k, v => [(k, v)]
  | (k', v') :: rest, k, v =>
    if k' = k then (k', v) :: rest else (k', v') :: setEntries rest k v

/-- A Go `map[string][]string`. -/
structure GoMap where
  entries : List (Str × List Str)
  nodup : (keysOf entries).Nodup

namespace GoMap

/-- The empty map `map[string][]string{}`. -/
def empty : GoMap := ⟨[], List.nodup_nil⟩

/-- The keys of the map. -/
def keys (m : GoMap) : List Str := keysOf m.entries

/-- Lookup `m[k]` as an option. -/
def get (m : GoMap) (k : Str) : Option (List Str) := lookupEntries m.entries k

/-- The two-valued index expression `v, ok := m[k]`. -/
def index2 (m : GoMap) (k : Str) : List Str × Bool :=
  match m.get k with
  | some v => (v, true)
  | none => ([], false)

/-- The index expression `m[k]`: the zero value for an absent key. -/
def index (m : GoMap) (k : Str) : List Str := (m.index2 k).1

/-- The assignment `m[k] = v`.  The keys stay pairwise distinct: an existing
key keeps its place, a new key is one that was not there. -/
def set (m : GoMap) (k : Str) (v : List Str) : GoMap :=
  ⟨setEntries m.entries k v, by
    have hnd := m.nodup
    generalize m.entries = es at hnd
    induction es with
    | nil => simp [setEntries, keysOf]
    | cons e rest ih =>
      obtain ⟨k', v'⟩ := e
      simp only [keysOf, List.map_cons, List.nodup_cons] at hnd ih ⊢
      by_cases h : k' = k
      · simp only [setEntries, h, if_true, List.map_cons, List.nodup_cons]
        exact ⟨by simpa [h] using hnd.1, hnd.2⟩
      · simp only [setEntries, h, if_false, List.map_cons, List.nodup_cons]
        refine ⟨?_, ih hnd.2⟩
        intro hmem
        obtain ⟨⟨a, w⟩, hin, ha⟩ := List.mem_map.1 hmem
        simp only at ha
        subst ha
        have : ∀ (l : List (Str × List Str)), (a, w) ∈ setEntries l k v →
            (a, w) ∈ l ∨ a = k := by
          intro l
          induction l with
          | nil =>
            intro hx
            simp [setEntries] at hx
            exact Or.inr hx.1
          | cons e' l' ih' =>
            obtain ⟨k2, v2⟩ := e'
            intro hx
            by_cases h2 : k2 = k
            · simp only [setEntries, h2, if_true, List.mem_cons, Prod.mk.injEq] at hx
              rcases hx with hx | hx
              · exact Or.inr hx.1
              · exact Or.inl (List.mem_cons_of_mem _ hx)
            · simp only [setEntries, h2, if_false, List.mem_cons, Prod.mk.injEq] at hx
              rcases hx with hx | hx
              · exact Or.inl (by simp [hx.1, hx.2])
              · rcases ih' hx with h3 | h3
                · exact Or.inl (List.mem_cons_of_mem _ h3)
                · exact Or.inr h3
        rcases this rest hin with h3 | h3
        · exact hnd.1 (List.mem_map_of_mem Prod.fst h3)
        · exact h h3⟩

end GoMap

/-! ## The parser -/

/-- The Go `error` values the model distinguishes. -/
inductive Error where
  | EOF
  | other (code : Nat)
deriving DecidableEq, Repr

/-- An open file: the bytes still to be read, and the error that the read
returns once they are exhausted (`Error.EOF` at the regular end of a file). -/
structure File where
  data : Str
  final : Error

/-- The outcome of `os.Open` for each path. -/
abbrev FileSystem := Str → Except Error File

/-- Worker of `ReadString`: splits after the first `delim`; `acc` is the
part already read, reversed. -/
def splitDelim (delim : Char) : Str → Str → Option (Str × Str)
  | _, [] => none
  | acc, c :: cs =>
    if c = delim then some ((c :: acc).reverse, cs) else splitDelim delim (c :: acc) cs

/-- Go `bufio.Reader.ReadString`: reads up to and including the first
`delim`.  When the data ends before a delimiter is found it returns what was
read together with the error. -/
def ReadString (f : File) (delim : Char) : Str × Option Error × File :=
  match splitDelim delim [] f.data with
  | some (line, rest) => (line, none, { f with data := rest })
  | none => (f.data, some f.final, { f with data := [] })

/-- The Go struct `ConfigParser`. -/
structure ConfigParser where
  ConfigPath : Str
  GlobalSection : List Str
  DefaultsSection : List Str
  FrontendSection : GoMap
  BackendSection : GoMap

/-- Go `NewConfigParser`. -/
def NewConfigParser (configPath : Str) : ConfigParser :=
  { ConfigPath := configPath
    GlobalSection := []
    DefaultsSection := []
    FrontendSection := GoMap.empty
    BackendSection := GoMap.empty }

/-- The receiver of `Parse` together with the local variables of its loop. -/
structure ParseState where
  p : ConfigParser
  currSection : Str
  currSubsection : Str

/-- The `switch currSection` statement at the end of the loop body of
`Parse` (lines 101-110 of `config_parser.go`): files the content line `line`
under the current section. -/
def storeLine (st : ParseState) (line : Str) : ParseState :=
  if st.currSection = globalKeyword then
    { st with p := { st.p with GlobalSection := st.p.GlobalSection ++ [line] } }
  else if st.currSection = defaultsKeyword then
    { st with p := { st.p with DefaultsSection := st.p.DefaultsSection ++ [line] } }
  else if st.currSection = frontendKeyword then
    { st with p := { st.p with
        FrontendSection := st.p.FrontendSection.set st.currSubsection
          (st.p.FrontendSection.index st.currSubsection ++ [line]) } }
  else if st.currSection = backendKeyword then
    { st with p := { st.p with
        BackendSection := st.p.BackendSection.set st.currSubsection
          (st.p.BackendSection.index st.currSubsection ++ [line]) } }
  else st

/-- The body of the loop of `Parse` for a line that was read successfully
(lines 65-110 of `config_parser.go`). -/
def parseLine (st : ParseState) (raw : Str) : ParseState :=
  let line := TrimSpace raw
  if HasPrefix line commentChar || line == [] then st
  else if HasPrefix line globalKeyword then
    { st with currSection := globalKeyword }
  else if HasPrefix line defaultsKeyword then
    { st with currSection := defaultsKeyword }
  else if HasPrefix line frontendKeyword then
    let words := Fields line
    if words.length > 1 then
      let sub := words.getD 1 []
      { p := { st.p with
                FrontendSection :=
                  if (st.p.FrontendSection.index2 sub).2 then st.p.FrontendSection
                  else st.p.FrontendSection.set sub [] }
        currSection := frontendKeyword
        currSubsection := sub }
    else { st with currSection := frontendKeyword }
  else if HasPrefix line backendKeyword then
    let words := Fields line
    if words.length > 1 then
      let sub := words.getD 1 []
      { p := { st.p with
                BackendSection :=
                  if (st.p.BackendSection.index2 sub).2 then st.p.BackendSection
                  else st.p.BackendSection.set sub [] }
        currSection := backendKeyword
        currSubsection := sub }
    else { st with currSection := backendKeyword }
  else storeLine st line

/-- The effect of a `frontend` header line that announces the name `n`
(lines 79-85): the entry of `n` is created when absent. -/
def openFrontend (st : ParseState) (n : Str) : ParseState :=
  { p := { st.p with
            FrontendSection :=
              if (st.p.FrontendSection.index2 n).2 then st.p.FrontendSection
              else st.p.FrontendSection.set n [] }
    currSection := frontendKeyword
    currSubsection := n }

/-- The effect of a `backend` header line that announces the name `n`
(lines 90-96): the entry of `n` is created when absent. -/
def openBackend (st : ParseState) (n : Str) : ParseState :=
  { p := { st.p with
            BackendSection :=
              if (st.p.BackendSection.index2 n).2 then st.p.BackendSection
              else st.p.BackendSection.set n [] }
    currSection := backendKeyword
    currSubsection := n }

/-- The loop of `Parse` (lines 56-111).  `fuel` bounds the number of
iterations; every successful `ReadString` consumes at least one character,
so `data.length + 1` iterations always reach the end of the file. -/
def parseLoop : Nat → ParseState → File → ParseState × Option Error
  | 0, st, _ => (st, none)
  | fuel + 1, st, f =>
    match ReadString f '\n' with
    | (_, some err, _) => if err ≠ Error.EOF then (st, some err) else (st, none)
    | (line, none, f') => parseLoop fuel (parseLine st line) f'

/-- Go `ConfigParser.Parse`: the parser after the call, and the returned error. -/
def Parse (fs : FileSystem) (p : ConfigParser) : ConfigParser × Option Error :=
  match fs p.ConfigPath with
  | Except.error err => (p, some err)
  | Except.ok f =>
    let r := parseLoop (f.data.length + 1) ⟨p, [], []⟩ f
    (r.1.p, r.2)

/-- The state in which the loop of `Parse` starts on a fresh parser. -/
def initState : ParseState :=
  ⟨NewConfigParser [], [], []⟩

/-- A file system in which every path opens a file with content `c` that is
read without error. -/
def readable (c : Str) : FileSystem :=
  fun _ => Except.ok ⟨c, Error.EOF⟩

/-- The parser obtained by `NewConfigParser` followed by `Parse` on a
readable file with content `c`. -/
def parseText (c : Str) : ConfigParser :=
  (Parse (readable c) (NewConfigParser [])).1

/-! ## Queries

The query methods have a pointer receiver; each one returns its result
together with the parser as it is after the call. -/

/-- The `range` loop of `findInMap` over the entries in the order `es`,
with `res` the result map built so far. -/
def findInMapLoop : List (Str × List Str) → Str → Bool → GoMap → GoMap
  | [], _, _, res => res
  | (name, contents) :: rest, s, strict, res =>
    if strict then
      if name = s then res.set name contents
      else findInMapLoop rest s strict res
    else
      if Contains name s then findInMapLoop rest s strict (res.set name contents)
      else findInMapLoop rest s strict res

/-- Go `ConfigParser.findInMap`. -/
def findInMap (p : ConfigParser) (m : GoMap) (s : Str) (strict : Bool) :
    GoMap × ConfigParser :=
  (findInMapLoop m.entries s strict GoMap.empty, p)

/-- Go `ConfigParser.Frontends`. -/
def Frontends (p : ConfigParser) (nameSubstr : Str) : GoMap × ConfigParser :=
  findInMap p p.FrontendSection nameSubstr false

/-- Go `ConfigParser.Frontend`. -/
def Frontend (p : ConfigParser) (name : Str) : (List Str × Bool) × ConfigParser :=
  let r := findInMap p p.FrontendSection name true
  (r.1.index2 name, r.2)

/-- Go `ConfigParser.Backends`. -/
def Backends (p : ConfigParser) (nameSubstr : Str) : GoMap × ConfigParser :=
  findInMap p p.BackendSection nameSubstr false

/-- Go `ConfigParser.Backend`. -/
def Backend (p : ConfigParser) (name : Str) : (List Str × Bool) × ConfigParser :=
  let r := findInMap p p.BackendSection name true
  (r.1.index2 name, r.2)

/-! ## Vocabulary of the specification

The definitions below are not part of the program.  They express the notions
the specification uses to describe an input text: its lines, blank and
comment lines, header lines, and the blocks of content lines that follow the
header lines. -/

/-- The text made of the lines `ls`, each one ended by a newline character. -/
def joinLines : List Str → Str
  | [] => []
  | l :: ls => l ++ '\n' :: joinLines ls

/-- Worker of `textLines`: `acc` is the line being read, reversed. -/
def textLinesAux : Str → Str → List Str
  | acc, [] => if acc.isEmpty then [] else [acc.reverse]
  | acc, c :: cs =>
    if c = '\n' then acc.reverse :: textLinesAux [] cs else textLinesAux (c :: acc) cs

/-- The lines of a text, without their newline characters.  Text after the
last newline character, if there is any, is the last line. -/
def textLines (c : Str) : List Str :=
  textLinesAux [] c

/-- Worker of `terminatedLines`: `acc` is the line being read, reversed. -/
def terminatedLinesAux : Str → Str → List Str
  | _, [] => []
  | acc, c :: cs =>
    if c = '\n' then acc.reverse :: terminatedLinesAux [] cs
    else terminatedLinesAux (c :: acc) cs

/-- The lines of a text that are ended by a newline character, without it. -/
def terminatedLines (c : Str) : List Str :=
  terminatedLinesAux [] c

/-- A text is newline-terminated when it is empty or ends with a newline. -/
def NewlineTerminated (c : Str) : Prop :=
  c = [] ∨ c.getLast? = some '\n'

/-- A line that is empty or consists of white space only. -/
def isBlankLine (l : Str) : Bool :=
  l.all isSpace

/-- A line whose first non-white-space character is the comment marker. -/
def isCommentLine (l : Str) : Bool :=
  (l.dropWhile isSpace).head? == some '#'

/-- A line that is blank or a comment. -/
def isSkippedLine (l : Str) : Bool :=
  isBlankLine l || isCommentLine l

/-- The four kinds of section. -/
inductive SectionType where
  | global
  | defaults
  | frontend
  | backend
deriving DecidableEq, Repr

/-- The section keyword a trimmed line starts with, if any. -/
def headerType (t : Str) : Option SectionType :=
  if HasPrefix t globalKeyword then some SectionType.global
  else if HasPrefix t defaultsKeyword then some SectionType.defaults
  else if HasPrefix t frontendKeyword then some SectionType.frontend
  else if HasPrefix t backendKeyword then some SectionType.backend
  else none

/-- A header line: a line whose trimmed text starts with a section keyword. -/
def isHeaderLine (l : Str) : Bool :=
  (headerType (TrimSpace l)).isSome

/-- The name a header line announces: its second white-space separated token. -/
def headerName (t : Str) : Option Str :=
  (Fields t).get? 1

/-- The trimmed forms of the lines that are neither blank nor comments. -/
def significantLines (ls : List Str) : List Str :=
  (ls.filter (fun l => !isSkippedLine l)).map TrimSpace

/-- A header line with the content lines between it and the next header line
(or the end of the input). -/
structure Block where
  header : Str
  body : List Str
deriving DecidableEq, Repr

/-- Splits significant lines into the lines before the first header line and
the blocks opened by the header lines. -/
def splitBlocks : List Str → List Str × List Block
  | [] => ([], [])
  | t :: ts =>
    if (headerType t).isSome then ([], ⟨t, (splitBlocks ts).1⟩ :: (splitBlocks ts).2)
    else (t :: (splitBlocks ts).1, (splitBlocks ts).2)

/-- A block together with the section it belongs to.  `name` is the block
name in force: the name its header announces or, for a header without a name
token, the name announced most recently before it.  `named` tells whether the
header is a frontend or backend header that carries a name token. -/
structure OpenedBlock where
  type : SectionType
  name : Str
  named : Bool
  body : List Str
deriving DecidableEq, Repr

/-- Attributes each block to its section; `cur` is the name announced most
recently before the blocks. -/
def openBlocks : Str → List Block → List OpenedBlock
  | _, [] => []
  | cur, b :: bs =>
    match headerType b.header with
    | some SectionType.frontend =>
      match headerName b.header with
      | some n => ⟨SectionType.frontend, n, true, b.body⟩ :: openBlocks n bs
      | none => ⟨SectionType.frontend, cur, false, b.body⟩ :: openBlocks cur bs
    | some SectionType.backend =>
      match headerName b.header with
      | some n => ⟨SectionType.backend, n, true, b.body⟩ :: openBlocks n bs
      | none => ⟨SectionType.backend, cur, false, b.body⟩ :: openBlocks cur bs
    | some ty => ⟨ty, cur, false, b.body⟩ :: openBlocks cur bs
    | none => openBlocks cur bs

/-- The blocks of a list of input lines, each with its section. -/
def blocksOf (ls : List Str) : List OpenedBlock :=
  openBlocks [] (splitBlocks (significantLines ls)).2

/-- Concatenation of lists of lines. -/
def concatLines : List (List Str) → List Str
  | [] => []
  | x :: xs => x ++ concatLines xs

/-- The content of the unnamed section of type `ty` (global or defaults):
the bodies of its blocks, concatenated in file order. -/
def sectionContent (ty : SectionType) (bs : List OpenedBlock) : List Str :=
  concatLines ((bs.filter (fun b => b.type = ty)).map OpenedBlock.body)

/-- The content of the section of type `ty` (frontend or backend) with name
`n`: the bodies of its blocks, concatenated in file order. -/
def namedContent (ty : SectionType) (n : Str) (bs : List OpenedBlock) : List Str :=
  concatLines ((bs.filter (fun b => b.type = ty ∧ b.name = n)).map OpenedBlock.body)

/-- Whether the section of type `ty` with name `n` has an entry: one of its
blocks has a header that names it, or has content. -/
def namedPresent (ty : SectionType) (n : Str) (bs : List OpenedBlock) : Bool :=
  bs.any (fun b => b.type = ty ∧ b.name = n ∧ (b.named = true ∨ b.body ≠ []))

/-- All the lines stored in a map. -/
def GoMap.allLines (m : GoMap) : List Str :=
  concatLines (m.entries.map Prod.snd)

/-- All the lines stored in the four collections of a parser. -/
def storedLines (p : ConfigParser) : List Str :=
  p.GlobalSection ++ p.DefaultsSection ++ p.FrontendSection.allLines ++
    p.BackendSection.allLines

/-! ### Auxiliary notions for the proofs -/

/-- The section type that a value of `currSection` selects in the `switch`
statement of `Parse`. -/
def sectionOfKeyword (s : Str) : Option SectionType :=
  if s = globalKeyword then some SectionType.global
  else if s = defaultsKeyword then some SectionType.defaults
  else if s = frontendKeyword then some SectionType.frontend
  else if s = backendKeyword then some SectionType.backend
  else none

/-- The loop body of `Parse` on a trimmed line that is neither blank nor a
comment. -/
def routeLine (st : ParseState) (t : Str) : ParseState :=
  match headerType t with
  | some SectionType.global => { st with currSection := globalKeyword }
  | some SectionType.defaults => { st with currSection := defaultsKeyword }
  | some SectionType.frontend =>
    match headerName t with
    | some n => openFrontend st n
    | none => { st with currSection := frontendKeyword }
  | some SectionType.backend =>
    match headerName t with
    | some n => openBackend st n
    | none => { st with currSection := backendKeyword }
  | none => storeLine st t

/-- The blocks of the significant lines `ts` when the lines before the first
header line are content of the section selected by `sec`, under the name
`cur`. -/
def openedFrom (sec : Option SectionType) (cur : Str) (ts : List Str) : List OpenedBlock :=
  (match sec with
   | some ty => [⟨ty, cur, false, (splitBlocks ts).1⟩]
   | none => []) ++ openBlocks cur (splitBlocks ts).2

/-- Whether a block belongs to the section of type `ty` (with name `n` when
the type is frontend or backend). -/
def belongsTo (ty : SectionType) (n : Str) (b : OpenedBlock) : Bool :=
  b.type = ty && (ty = SectionType.global || ty = SectionType.defaults || b.name = n)

/-- The bodies of the blocks of a section, concatenated. -/
def blockContent (ty : SectionType) (n : Str) (bs : List OpenedBlock) : List Str :=
  concatLines ((bs.filter (belongsTo ty n)).map OpenedBlock.body)

/-- The lines a parser stores for a section. -/
def contentAt (ty : SectionType) (n : Str) (p : ConfigParser) : List Str :=
  match ty with
  | SectionType.global => p.GlobalSection
  | SectionType.defaults => p.DefaultsSection
  | SectionType.frontend => p.FrontendSection.index n
  | SectionType.backend => p.BackendSection.index n

/-- Whether a parser has an entry for a named section. -/
def presentAt (ty : SectionType) (n : Str) (p : ConfigParser) : Bool :=
  match ty with
  | SectionType.frontend => (p.FrontendSection.get n).isSome
  | SectionType.backend => (p.BackendSection.get n).isSome
  | _ => false

/-- Every line stored in one of the four collections of `p` satisfies `P`. -/
def AllStored (P : Str → Prop) (p : ConfigParser) : Prop :=
  (∀ l ∈ p.GlobalSection, P l) ∧ (∀ l ∈ p.DefaultsSection, P l) ∧
  (∀ name contents, p.FrontendSection.get name = some contents → ∀ l ∈ contents, P l) ∧
  (∀ name contents, p.BackendSection.get name = some contents → ∀ l ∈ contents, P l)

/-- The relation between a list of lines and the same list with blank and
comment lines inserted at arbitrary positions. -/
inductive InsertedSkipped : List Str → List Str → Prop where
  | done : InsertedSkipped [] []
  | keep (l : Str) {a b : List Str} : InsertedSkipped a b → InsertedSkipped (l :: a) (l :: b)
  | insert (l : Str) {a b : List Str} :
      isSkippedLine l = true → InsertedSkipped a b → InsertedSkipped a (l :: b)

/-! ### Further notions of the specification and of the proofs -/

/-- A content line: a line that is neither blank, nor a comment, nor a header. -/
def isContentLine (l : Str) : Bool :=
  !isSkippedLine l && !isHeaderLine l

/-- A text truncated just after its last newline character: the characters
after the last newline, or all of them when there is no newline, are removed. -/
def truncateAfterLastNewline (c : Str) : Str :=
  c.rdropWhile (fun a => a != '\n')

/-- The name `k` is announced for the section type `ty` by a header line of
`L`: a line whose trimmed text starts with the keyword of `ty` and has `k` as
its second token. -/
def Announced (ty : SectionType) (L : List Str) (k : Str) : Prop :=
  ∃ l ∈ L, headerType (TrimSpace l) = some ty ∧ headerName (TrimSpace l) = some k

/-- Invariant of the loop when every frontend and backend header line
carries a name: the keys of the two maps, and the current block name while a
frontend or a backend is open, are names announced for that section type. -/
def KeysAnnounced (L : List Str) (st : ParseState) : Prop :=
  (∀ ty k, presentAt ty k st.p = true → Announced ty L k) ∧
  (∀ ty, (ty = SectionType.frontend ∨ ty = SectionType.backend) →
    sectionOfKeyword st.currSection = some ty → Announced ty L st.currSubsection)

/-! ## Lemmas on maps -/

theorem keysOf_setEntries (es : List (Str × List Str)) (k : Str) (v : List Str) :
    keysOf (setEntries es k v) = if k ∈ keysOf es then keysOf es else keysOf es ++ [k] := by
  induction es with
  | nil => simp [setEntries, keysOf]
  | cons e rest ih =>
    obtain ⟨k', v'⟩ := e
    by_cases h : k' = k
    · subst h
      simp [setEntries, keysOf]
    · have h' : ¬ k = k' := fun e => h e.symm
      simp only [keysOf] at ih
      by_cases hm : k ∈ List.map Prod.fst rest
      · simp [setEntries, keysOf, h, h', hm, ih]
      · simp [setEntries, keysOf, h, h', hm, ih]

theorem nodup_setEntries (es : List (Str × List Str)) (k : Str) (v : List Str)
    (h : (keysOf es).Nodup) : (keysOf (setEntries es k v)).Nodup := by
  rw [keysOf_setEntries]
  split
  · exact h
  · next hk =>
    rw [List.nodup_append]
    refine ⟨h, List.nodup_singleton k, ?_⟩
    intro a ha hb
    simp at hb
    subst hb
    exact hk ha

theorem lookupEntries_setEntries (es : List (Str × List Str)) (k k' : Str) (v : List Str) :
    lookupEntries (setEntries es k v) k' = if k = k' then some v else lookupEntries es k' := by
  induction es with
  | nil => simp [setEntries, lookupEntries]
  | cons e rest ih =>
    obtain ⟨a, w⟩ := e
    by_cases h : a = k
    · subst h
      by_cases h2 : a = k' <;> simp [setEntries, lookupEntries, h2]
    · by_cases h2 : a = k'
      · subst h2
        have h3 : ¬ k = a := fun e => h e.symm
        simp [setEntries, lookupEntries, h, h3]
      · simp [setEntries, lookupEntries, h, h2, ih]

theorem GoMap.get_empty (k : Str) : GoMap.empty.get k = none := rfl

theorem GoMap.get_set (m : GoMap) (k k' : Str) (v : List Str) :
    (m.set k v).get k' = if k = k' then some v else m.get k' :=
  lookupEntries_setEntries m.entries k k' v

theorem GoMap.index2_eq (m : GoMap) (k : Str) :
    m.index2 k = ((m.get k).getD [], (m.get k).isSome) := by
  unfold GoMap.index2
  cases m.get k <;> rfl

theorem GoMap.index_eq (m : GoMap) (k : Str) : m.index k = (m.get k).getD [] := by
  simp [GoMap.index, GoMap.index2_eq]

theorem GoMap.get_eq_of_index (m : GoMap) (k : Str) :
    m.get k = if (m.get k).isSome then some (m.index k) else none := by
  rw [GoMap.index_eq]
  cases m.get k <;> simp

theorem lookupEntries_isSome (es : List (Str × List Str)) (k : Str) :
    (lookupEntries es k).isSome = true ↔ k ∈ keysOf es := by
  induction es with
  | nil => simp [lookupEntries, keysOf]
  | cons e rest ih =>
    obtain ⟨a, w⟩ := e
    by_cases h : a = k
    · simp [lookupEntries, keysOf, h]
    · have h' : ¬ k = a := fun e => h e.symm
      simp only [keysOf] at ih
      simp [lookupEntries, keysOf, h, h', ih]

theorem lookupEntries_mem (es : List (Str × List Str)) (k : Str) (v : List Str)
    (h : lookupEntries es k = some v) : (k, v) ∈ es := by
  induction es with
  | nil => simp [lookupEntries] at h
  | cons e rest ih =>
    obtain ⟨a, w⟩ := e
    by_cases h1 : a = k
    · simp [lookupEntries, h1] at h
      simp [h1, h]
    · simp [lookupEntries, h1] at h
      exact List.mem_cons_of_mem _ (ih h)

theorem lookupEntries_of_mem (es : List (Str × List Str)) (hnd : (keysOf es).Nodup)
    (k : Str) (v : List Str) (h : (k, v) ∈ es) : lookupEntries es k = some v := by
  induction es with
  | nil => simp at h
  | cons e rest ih =>
    obtain ⟨a, w⟩ := e
    simp only [keysOf, List.map_cons, List.nodup_cons] at hnd
    rcases List.mem_cons.1 h with h1 | h1
    · injection h1 with h2 h3
      simp [lookupEntries, h2, h3]
    · have hne : ¬ a = k := by
        intro e
        apply hnd.1
        rw [e]
        exact List.mem_map_of_mem Prod.fst h1
      simp only [lookupEntries, hne, if_false]
      exact ih hnd.2 h1

/-! ## Lemmas on strings -/

theorem dropWhile_concat_neg (q : Char → Bool) (m : Str) (a : Char) (h : q a = false) :
    (m ++ [a]).dropWhile q = m.dropWhile q ++ [a] := by
  induction m with
  | nil => simp [List.dropWhile, h]
  | cons b m ih =>
    by_cases hb : q b = true
    · simp [List.dropWhile, hb, ih]
    · simp [List.dropWhile, hb]

theorem rdropWhile_cons_neg (q : Char → Bool) (a : Char) (l : Str) (h : q a = false) :
    (a :: l).rdropWhile q = a :: l.rdropWhile q := by
  simp [List.rdropWhile, dropWhile_concat_neg q _ a h]

theorem TrimSpace_eq (s : Str) :
    TrimSpace s = (s.dropWhile isSpace).rdropWhile isSpace := rfl

theorem dropWhile_head_neg (q : Char → Bool) (s : Str) (a : Char) (r : Str)
    (h : s.dropWhile q = a :: r) : q a = false := by
  induction s with
  | nil => simp at h
  | cons b s ih =>
    by_cases hb : q b = true
    · simp [List.dropWhile, hb] at h
      exact ih h
    · simp [List.dropWhile, hb] at h
      rw [← h.1]
      simpa using hb

theorem TrimSpace_cases (s : Str) :
    (s.dropWhile isSpace = [] ∧ TrimSpace s = []) ∨
    ∃ a r, s.dropWhile isSpace = a :: r ∧ isSpace a = false ∧
      TrimSpace s = a :: r.rdropWhile isSpace := by
  rw [TrimSpace_eq]
  cases h : s.dropWhile isSpace with
  | nil => left; simp [List.rdropWhile]
  | cons a r =>
    right
    have ha := dropWhile_head_neg isSpace s a r h
    exact ⟨a, r, rfl, ha, rdropWhile_cons_neg isSpace a r ha⟩

theorem TrimSpace_concat_space (l : Str) (x : Char) (hx : isSpace x = true) :
    TrimSpace (l ++ [x]) = TrimSpace l := by
  induction l with
  | nil => simp [TrimSpace, List.dropWhile, hx]
  | cons a l ih =>
    by_cases ha : isSpace a = true
    · simpa [TrimSpace, List.dropWhile, ha] using ih
    · simp only [TrimSpace_eq, List.cons_append, List.dropWhile, ha]
      rw [← List.cons_append, List.rdropWhile_concat_pos _ _ _ hx]

theorem isSpace_newline : isSpace '\n' = true := by decide

theorem TrimSpace_newline (l : Str) : TrimSpace (l ++ ['\n']) = TrimSpace l :=
  TrimSpace_concat_space l '\n' isSpace_newline

theorem isBlankLine_iff (l : Str) : isBlankLine l = true ↔ TrimSpace l = [] := by
  constructor
  · intro h
    have : l.dropWhile isSpace = [] := by
      rw [List.dropWhile_eq_nil_iff]
      simpa [isBlankLine] using h
    simp [TrimSpace, this]
  · intro h
    rcases TrimSpace_cases l with ⟨h1, _⟩ | ⟨a, r, _, _, h3⟩
    · rw [List.dropWhile_eq_nil_iff] at h1
      simpa [isBlankLine] using h1
    · rw [h3] at h
      simp at h

theorem isCommentLine_iff (l : Str) :
    isCommentLine l = true ↔ HasPrefix (TrimSpace l) commentChar = true := by
  rcases TrimSpace_cases l with ⟨h1, h2⟩ | ⟨a, r, h1, _, h3⟩
  · simp [isCommentLine, h1, h2, HasPrefix, commentChar, List.isPrefixOf]
  · simp [isCommentLine, h1, h3, HasPrefix, commentChar, List.isPrefixOf]
    exact eq_comm

theorem isSkippedLine_iff (l : Str) :
    isSkippedLine l = true ↔
      (HasPrefix (TrimSpace l) commentChar || TrimSpace l == []) = true := by
  simp only [isSkippedLine, Bool.or_eq_true, isBlankLine_iff, isCommentLine_iff, beq_iff_eq]
  exact or_comm

/-! ## Reading the file line by line -/

theorem parseLine_newline (st : ParseState) (l : Str) :
    parseLine st (l ++ ['\n']) = parseLine st l := by
  unfold parseLine
  rw [TrimSpace_newline]

theorem splitDelim_none (acc c : Str) (h : splitDelim '\n' acc c = none) :
    terminatedLinesAux acc c = [] := by
  induction c generalizing acc with
  | nil => rfl
  | cons a c ih =>
    by_cases ha : a = '\n'
    · simp [splitDelim, ha] at h
    · simp only [splitDelim, ha, if_false] at h
      simp only [terminatedLinesAux, ha, if_false]
      exact ih _ h

theorem splitDelim_some (acc c line rest : Str)
    (h : splitDelim '\n' acc c = some (line, rest)) :
    ∃ l, line = l ++ ['\n'] ∧ terminatedLinesAux acc c = l :: terminatedLinesAux [] rest ∧
      rest.length < c.length := by
  induction c generalizing acc with
  | nil => simp [splitDelim] at h
  | cons a c ih =>
    by_cases ha : a = '\n'
    · simp only [splitDelim, ha, if_true, Option.some.injEq, Prod.mk.injEq] at h
      refine ⟨acc.reverse, ?_, ?_, ?_⟩
      · rw [← h.1]; simp
      · simp [terminatedLinesAux, ha, h.2]
      · rw [← h.2]; simp
    · simp only [splitDelim, ha, if_false] at h
      obtain ⟨l, h1, h2, h3⟩ := ih _ h
      refine ⟨l, h1, ?_, ?_⟩
      · simp only [terminatedLinesAux, ha, if_false]
        exact h2
      · simp only [List.length_cons]
        omega

/-- With enough fuel the loop of `Parse` on a file that is read without
error processes exactly the newline-terminated lines, and returns no error. -/
theorem parseLoop_eq (fuel : Nat) (st : ParseState) (c : Str) (h : c.length < fuel) :
    parseLoop fuel st ⟨c, Error.EOF⟩ = ((terminatedLines c).foldl parseLine st, none) := by
  induction fuel generalizing st c with
  | zero => omega
  | succ n ih =>
    unfold parseLoop ReadString
    cases hs : splitDelim '\n' [] c with
    | none =>
      have := splitDelim_none [] c hs
      simp [terminatedLines, this]
    | some lr =>
      obtain ⟨line, rest⟩ := lr
      obtain ⟨l, h1, h2, h3⟩ := splitDelim_some [] c line rest hs
      simp only [terminatedLines, h2, List.foldl_cons]
      rw [ih _ rest (by omega), h1, parseLine_newline]
      rfl

theorem Parse_readable (c : Str) (p : ConfigParser) :
    Parse (readable c) p = (((terminatedLines c).foldl parseLine ⟨p, [], []⟩).p, none) := by
  simp [Parse, readable, parseLoop_eq]

theorem parseText_eq (c : Str) :
    parseText c = ((terminatedLines c).foldl parseLine initState).p := by
  simp [parseText, Parse_readable, initState]

theorem terminatedLinesAux_append (acc l rest : Str) (h : '\n' ∉ l) :
    terminatedLinesAux acc (l ++ '\n' :: rest) =
      (acc.reverse ++ l) :: terminatedLinesAux [] rest := by
  induction l generalizing acc with
  | nil => simp [terminatedLinesAux]
  | cons a l ih =>
    have ha : ¬ a = '\n' := by
      intro e
      apply h
      simp [e]
    have hl : '\n' ∉ l := fun hm => h (List.mem_cons_of_mem _ hm)
    simp [terminatedLinesAux, ha, ih _ hl]

theorem terminatedLines_joinLines (ls : List Str) (rest : Str)
    (h : ∀ l ∈ ls, '\n' ∉ l) :
    terminatedLines (joinLines ls ++ rest) = ls ++ terminatedLines rest := by
  induction ls with
  | nil => simp [joinLines]
  | cons l ls ih =>
    have h1 : '\n' ∉ l := h l (List.mem_cons_self _ _)
    have h2 : ∀ l' ∈ ls, '\n' ∉ l' := fun l' hl' => h l' (List.mem_cons_of_mem _ hl')
    have := ih h2
    simp only [terminatedLines] at this ⊢
    simp only [joinLines, List.append_assoc, List.cons_append]
    rw [terminatedLinesAux_append [] l _ h1, this]
    simp

theorem terminatedLinesAux_noNewline (acc t : Str) (h : '\n' ∉ t) :
    terminatedLinesAux acc t = [] := by
  induction t generalizing acc with
  | nil => rfl
  | cons a t ih =>
    have ha : ¬ a = '\n' := by
      intro e
      apply h
      simp [e]
    have hl : '\n' ∉ t := fun hm => h (List.mem_cons_of_mem _ hm)
    simp [terminatedLinesAux, ha, ih _ hl]

/-! ## The loop body, case by case -/

theorem headerName_eq (t : Str) :
    headerName t = if (Fields t).length > 1 then some ((Fields t).getD 1 []) else none := by
  unfold headerName
  by_cases h : (Fields t).length > 1
  · simp only [h, if_true]
    rw [List.get?_eq_get h, List.getD_eq_getElem _ _ h]
    rfl
  · simp only [h, if_false]
    rw [List.get?_eq_none]
    omega

theorem parseLine_eq (st : ParseState) (l : Str) :
    parseLine st l =
      if isSkippedLine l = true then st
      else
        match headerType (TrimSpace l) with
        | some SectionType.global => { st with currSection := globalKeyword }
        | some SectionType.defaults => { st with currSection := defaultsKeyword }
        | some SectionType.frontend =>
          match headerName (TrimSpace l) with
          | some n => openFrontend st n
          | none => { st with currSection := frontendKeyword }
        | some SectionType.backend =>
          match headerName (TrimSpace l) with
          | some n => openBackend st n
          | none => { st with currSection := backendKeyword }
        | none => storeLine st (TrimSpace l) := by
  unfold parseLine
  simp only [isSkippedLine_iff, headerName_eq, headerType]
  split_ifs <;> simp_all [openFrontend, openBackend]

/-! ## Lemmas on the queries -/

theorem Contains_iff (name s : Str) : Contains name s = true ↔ s <:+: name := by
  induction name with
  | nil =>
    simp only [Contains, List.isPrefixOf_iff_prefix, List.infix_nil, List.prefix_nil]
  | cons c cs ih =>
    simp only [Contains, Bool.or_eq_true, List.isPrefixOf_iff_prefix, ih, List.infix_cons_iff]

theorem findInMapLoop_strict (es : List (Str × List Str)) (s k : Str) :
    (findInMapLoop es s true GoMap.empty).get k =
      if s = k then lookupEntries es s else none := by
  induction es with
  | nil => simp [findInMapLoop, GoMap.get_empty, lookupEntries]
  | cons e rest ih =>
    obtain ⟨name, contents⟩ := e
    by_cases h : name = s
    · subst h
      simp [findInMapLoop, GoMap.get_set, GoMap.get_empty, lookupEntries]
    · simp [findInMapLoop, h, ih, lookupEntries]

theorem findInMapLoop_substr (es : List (Str × List Str)) (hnd : (keysOf es).Nodup)
    (s k : Str) (res : GoMap) :
    (findInMapLoop es s false res).get k =
      if Contains k s = true then (lookupEntries es k).orElse (fun _ => res.get k)
      else res.get k := by
  induction es generalizing res with
  | nil => simp [findInMapLoop, lookupEntries]
  | cons e rest ih =>
    obtain ⟨name, contents⟩ := e
    simp only [keysOf, List.map_cons, List.nodup_cons] at hnd
    have hrest : lookupEntries rest name = none := by
      cases hl : lookupEntries rest name with
      | none => rfl
      | some v =>
        exact absurd (List.mem_map_of_mem Prod.fst (lookupEntries_mem rest name v hl)) hnd.1
    by_cases hc : Contains name s = true
    · simp only [findInMapLoop, hc, if_true, Bool.false_eq_true, if_false]
      rw [ih hnd.2, GoMap.get_set]
      by_cases hk : name = k
      · subst hk
        simp [hc, hrest, lookupEntries]
      · simp [hk, lookupEntries]
    · simp only [findInMapLoop, hc, if_false, Bool.false_eq_true]
      rw [ih hnd.2]
      by_cases hk : name = k
      · subst hk
        simp [hc]
      · simp [hk, lookupEntries]

theorem findInMap_substr_get (p : ConfigParser) (m : GoMap) (s k : Str) :
    (findInMap p m s false).1.get k = if s <:+: k then m.get k else none := by
  simp only [findInMap, findInMapLoop_substr m.entries m.nodup, GoMap.get_empty, Contains_iff]
  split
  · simp [GoMap.get]
  · rfl

/-! ## The claims on the queries -/

theorem Frontend_fst (p : ConfigParser) (name : Str) :
    (Frontend p name).1 =
      (match p.FrontendSection.get name with
       | some contents => (contents, true)
       | none => ([], false)) := by
  show (findInMapLoop p.FrontendSection.entries name true GoMap.empty).index2 name = _
  unfold GoMap.index2
  rw [findInMapLoop_strict]
  simp [GoMap.get]

theorem Backend_fst (p : ConfigParser) (name : Str) :
    (Backend p name).1 =
      (match p.BackendSection.get name with
       | some contents => (contents, true)
       | none => ([], false)) := by
  show (findInMapLoop p.BackendSection.entries name true GoMap.empty).index2 name = _
  unfold GoMap.index2
  rw [findInMapLoop_strict]
  simp [GoMap.get]

/-- C3: for every parser and every name, `Frontend(name)` returns
`(FrontendSection[name], true)` when the name is a key of `FrontendSection`
and `(empty, false)` otherwise, and `Backend(name)` does the same over
`BackendSection`: the scan of `findInMap` in strict mode is a key lookup. -/
theorem exact_query_is_key_lookup (p : ConfigParser) (name : Str) :
    (Frontend p name).1 =
        (match p.FrontendSection.get name with
         | some contents => (contents, true)
         | none => ([], false)) ∧
    (Backend p name).1 =
        (match p.BackendSection.get name with
         | some contents => (contents, true)
         | none => ([], false)) :=
  ⟨Frontend_fst p name, Backend_fst p name⟩

theorem findInMapLoop_no_match (es : List (Str × List Str)) (s : Str) (res : GoMap)
    (h : ∀ k ∈ keysOf es, ¬ s <:+: k) : findInMapLoop es s false res = res := by
  induction es with
  | nil => rfl
  | cons e rest ih =>
    obtain ⟨name, contents⟩ := e
    have hn : ¬ Contains name s = true := by
      rw [Contains_iff]
      exact h name (by simp [keysOf])
    simp only [findInMapLoop, hn, if_false, Bool.false_eq_true]
    exact ih (fun k hk => h k (by simp only [keysOf, List.map_cons] at hk ⊢
                                  exact List.mem_cons_of_mem _ hk))

/-- C4: for every parser and every string `s`, the map returned by
`Backends(s)` has exactly the entries of `BackendSection` whose name contains
`s` as a contiguous substring, each with the content it has in
`BackendSection`; it is the empty map when no name contains `s`.
`Frontends(s)` relates to `FrontendSection` in the same way.  On the backends
`be_app_ns_svc` and `be_other_ns_svc`, `Backends("_ns_")` returns both and
`Backends("be_app")` returns only the first. -/
theorem substring_query_is_filter :
    (∀ (p : ConfigParser) (s : Str),
      (∀ k, (Backends p s).1.get k = if s <:+: k then p.BackendSection.get k else none) ∧
      ((∀ k ∈ p.BackendSection.keys, ¬ s <:+: k) → (Backends p s).1.entries = []) ∧
      (∀ k, (Frontends p s).1.get k = if s <:+: k then p.FrontendSection.get k else none) ∧
      ((∀ k ∈ p.FrontendSection.keys, ¬ s <:+: k) → (Frontends p s).1.entries = [])) ∧
    (Backends (parseText
        "backend be_app_ns_svc\nserver s1 10.0.0.1:80\nbackend be_other_ns_svc\nserver s2 10.0.0.2:80\n".toList)
        "_ns_".toList).1.entries =
      [("be_app_ns_svc".toList, ["server s1 10.0.0.1:80".toList]),
       ("be_other_ns_svc".toList, ["server s2 10.0.0.2:80".toList])] ∧
    (Backends (parseText
        "backend be_app_ns_svc\nserver s1 10.0.0.1:80\nbackend be_other_ns_svc\nserver s2 10.0.0.2:80\n".toList)
        "be_app".toList).1.entries =
      [("be_app_ns_svc".toList, ["server s1 10.0.0.1:80".toList])] := by
  refine ⟨fun p s => ⟨?_, ?_, ?_, ?_⟩, by decide, by decide⟩
  · exact findInMap_substr_get p p.BackendSection s
  · intro h
    show (findInMapLoop p.BackendSection.entries s false GoMap.empty).entries = []
    rw [findInMapLoop_no_match _ _ _ h]
    rfl
  · exact findInMap_substr_get p p.FrontendSection s
  · intro h
    show (findInMapLoop p.FrontendSection.entries s false GoMap.empty).entries = []
    rw [findInMapLoop_no_match _ _ _ h]
    rfl

/-- C10: the four queries `Frontend`, `Frontends`, `Backend` and `Backends`
leave the parser as it was: its path, `GlobalSection`, `DefaultsSection`,
`FrontendSection` and `BackendSection` are the same after the call. -/
theorem queries_do_not_mutate (p : ConfigParser) (s : Str) :
    (Frontend p s).2 = p ∧ (Frontends p s).2 = p ∧
    (Backend p s).2 = p ∧ (Backends p s).2 = p :=
  ⟨rfl, rfl, rfl, rfl⟩

/-- C1: on the six lines of the scenario joined by newline characters, with
no newline after the last line, `Parse` fills `GlobalSection` and
`FrontendSection["public"]` as expected but never processes the last line
`server s1 1.2.3.4:80`: `BackendSection["be1"]` is present and empty, so
`Backend("be1")` returns `(empty, true)`.  The same text followed by a newline
gives the expected `(["server s1 1.2.3.4:80"], true)`. -/
theorem scenario_last_line_unterminated :
    (parseText "global\nmaxconn 100\nfrontend public\nbind :80\nbackend be1\nserver s1 1.2.3.4:80".toList).GlobalSection
      = ["maxconn 100".toList] ∧
    (parseText "global\nmaxconn 100\nfrontend public\nbind :80\nbackend be1\nserver s1 1.2.3.4:80".toList).FrontendSection.get
      "public".toList = some ["bind :80".toList] ∧
    (parseText "global\nmaxconn 100\nfrontend public\nbind :80\nbackend be1\nserver s1 1.2.3.4:80".toList).BackendSection.get
      "be1".toList = some [] ∧
    (Backend (parseText "global\nmaxconn 100\nfrontend public\nbind :80\nbackend be1\nserver s1 1.2.3.4:80".toList)
      "be1".toList).1 = ([], true) ∧
    (Backend (parseText "global\nmaxconn 100\nfrontend public\nbind :80\nbackend be1\nserver s1 1.2.3.4:80".toList)
      "be2".toList).1 = ([], false) ∧
    (parseText "global\nmaxconn 100\nfrontend public\nbind :80\nbackend be1\nserver s1 1.2.3.4:80\n".toList).BackendSection.get
      "be1".toList = some ["server s1 1.2.3.4:80".toList] ∧
    (Backend (parseText "global\nmaxconn 100\nfrontend public\nbind :80\nbackend be1\nserver s1 1.2.3.4:80\n".toList)
      "be1".toList).1 = (["server s1 1.2.3.4:80".toList], true) := by
  decide

/-! ## Invariants of the loop -/

theorem headerType_isSome_not_skipped (l : Str) (h : (headerType (TrimSpace l)).isSome = true) :
    isSkippedLine l = false := by
  cases hs : isSkippedLine l with
  | false => rfl
  | true =>
    rw [isSkippedLine_iff] at hs
    simp only [Bool.or_eq_true, beq_iff_eq] at hs
    rcases hs with hs | hs
    · exfalso
      cases ht : TrimSpace l with
      | nil => simp [ht, HasPrefix, commentChar, List.isPrefixOf] at hs
      | cons a r =>
        rw [ht] at hs h
        simp only [HasPrefix, commentChar, List.isPrefixOf, Bool.and_true, beq_iff_eq] at hs
        subst hs
        revert h
        simp [headerType, HasPrefix, globalKeyword, defaultsKeyword, frontendKeyword,
          backendKeyword, List.isPrefixOf]
    · rw [hs] at h
      simp [headerType, HasPrefix, globalKeyword, defaultsKeyword, frontendKeyword,
        backendKeyword, List.isPrefixOf] at h

theorem headerType_none_iff (t : Str) :
    headerType t = none ↔
      HasPrefix t globalKeyword = false ∧ HasPrefix t defaultsKeyword = false ∧
      HasPrefix t frontendKeyword = false ∧ HasPrefix t backendKeyword = false := by
  unfold headerType
  split_ifs <;> simp_all

theorem storeLine_allStored (P : Str → Prop) (st : ParseState) (t : Str)
    (h : AllStored P st.p) (ht : P t) : AllStored P (storeLine st t).p := by
  obtain ⟨h1, h2, h3, h4⟩ := h
  unfold storeLine
  split_ifs
  · refine ⟨?_, h2, h3, h4⟩
    intro l hl
    rcases List.mem_append.1 hl with hl | hl
    · exact h1 l hl
    · simp at hl; rw [hl]; exact ht
  · refine ⟨h1, ?_, h3, h4⟩
    intro l hl
    rcases List.mem_append.1 hl with hl | hl
    · exact h2 l hl
    · simp at hl; rw [hl]; exact ht
  · refine ⟨h1, h2, ?_, h4⟩
    intro name contents hg l hl
    simp only [GoMap.get_set] at hg
    split_ifs at hg with hk
    · injection hg with hg
      rw [← hg, GoMap.index_eq] at hl
      rcases List.mem_append.1 hl with hl | hl
      · cases hget : st.p.FrontendSection.get st.currSubsection with
        | none => simp [hget] at hl
        | some v => rw [hget] at hl; exact h3 _ v hget l hl
      · simp at hl; rw [hl]; exact ht
    · exact h3 name contents hg l hl
  · refine ⟨h1, h2, h3, ?_⟩
    intro name contents hg l hl
    simp only [GoMap.get_set] at hg
    split_ifs at hg with hk
    · injection hg with hg
      rw [← hg, GoMap.index_eq] at hl
      rcases List.mem_append.1 hl with hl | hl
      · cases hget : st.p.BackendSection.get st.currSubsection with
        | none => simp [hget] at hl
        | some v => rw [hget] at hl; exact h4 _ v hget l hl
      · simp at hl; rw [hl]; exact ht
    · exact h4 name contents hg l hl
  · exact ⟨h1, h2, h3, h4⟩

theorem openFrontend_allStored (P : Str → Prop) (st : ParseState) (n : Str)
    (h : AllStored P st.p) : AllStored P (openFrontend st n).p := by
  obtain ⟨h1, h2, h3, h4⟩ := h
  refine ⟨h1, h2, ?_, h4⟩
  intro name contents hg l hl
  simp only [openFrontend] at hg
  split_ifs at hg
  · exact h3 name contents hg l hl
  · simp only [GoMap.get_set] at hg
    split_ifs at hg
    · injection hg with hg
      rw [← hg] at hl
      simp at hl
    · exact h3 name contents hg l hl

theorem openBackend_allStored (P : Str → Prop) (st : ParseState) (n : Str)
    (h : AllStored P st.p) : AllStored P (openBackend st n).p := by
  obtain ⟨h1, h2, h3, h4⟩ := h
  refine ⟨h1, h2, h3, ?_⟩
  intro name contents hg l hl
  simp only [openBackend] at hg
  split_ifs at hg
  · exact h4 name contents hg l hl
  · simp only [GoMap.get_set] at hg
    split_ifs at hg
    · injection hg with hg
      rw [← hg] at hl
      simp at hl
    · exact h4 name contents hg l hl

theorem parseLine_allStored (P : Str → Prop) (st : ParseState) (l : Str)
    (h : AllStored P st.p)
    (hl : isSkippedLine l = false → headerType (TrimSpace l) = none → P (TrimSpace l)) :
    AllStored P (parseLine st l).p := by
  rw [parseLine_eq]
  split_ifs with hs
  · exact h
  · have hs' : isSkippedLine l = false := by simpa using hs
    split
    · exact h
    · exact h
    · split
      · exact openFrontend_allStored P st _ h
      · exact h
    · split
      · exact openBackend_allStored P st _ h
      · exact h
    · next hn => exact storeLine_allStored P st _ h (hl hs' hn)

theorem foldl_allStored (P : Str → Prop) (ls : List Str) (st : ParseState)
    (h : AllStored P st.p)
    (hl : ∀ l ∈ ls, isSkippedLine l = false → headerType (TrimSpace l) = none →
      P (TrimSpace l)) :
    AllStored P (ls.foldl parseLine st).p := by
  induction ls generalizing st with
  | nil => exact h
  | cons l ls ih =>
    simp only [List.foldl_cons]
    apply ih
    · exact parseLine_allStored P st l h (hl l (List.mem_cons_self _ _))
    · intro l' hl'
      exact hl l' (List.mem_cons_of_mem _ hl')

theorem allStored_new (P : Str → Prop) (path : Str) : AllStored P (NewConfigParser path) := by
  refine ⟨?_, ?_, ?_, ?_⟩ <;> simp [NewConfigParser, GoMap.get_empty]

/-- C7: for every input parsed by a fresh parser, no line stored in
`GlobalSection`, in `DefaultsSection` or in an entry of `FrontendSection` or
`BackendSection` starts with `global`, `defaults`, `frontend` or `backend`. -/
theorem header_lines_never_stored (c : Str) :
    AllStored (fun l => HasPrefix l globalKeyword = false ∧
        HasPrefix l defaultsKeyword = false ∧ HasPrefix l frontendKeyword = false ∧
        HasPrefix l backendKeyword = false) (parseText c) := by
  rw [parseText_eq]
  apply foldl_allStored
  · exact allStored_new _ _
  · intro l _ _ hn
    exact (headerType_none_iff _).1 hn

/-! ## Blank lines, comment lines and lines before the first header -/

theorem parseLine_skipped (st : ParseState) (l : Str) (h : isSkippedLine l = true) :
    parseLine st l = st := by
  rw [parseLine_eq]
  simp [h]

theorem foldl_insertedSkipped {a b : List Str} (h : InsertedSkipped a b) (st : ParseState) :
    b.foldl parseLine st = a.foldl parseLine st := by
  induction h generalizing st with
  | done => rfl
  | keep l _ ih => simp only [List.foldl_cons]; exact ih _
  | insert l hl _ ih => simp only [List.foldl_cons, parseLine_skipped st l hl]; exact ih _

theorem insertedSkipped_mem {a b : List Str} (h : InsertedSkipped a b) :
    ∀ l ∈ a, l ∈ b := by
  induction h with
  | done => simp
  | keep l _ ih =>
    intro x hx
    rcases List.mem_cons.1 hx with hx | hx
    · rw [hx]; exact List.mem_cons_self _ _
    · exact List.mem_cons_of_mem _ (ih x hx)
  | insert l _ _ ih =>
    intro x hx
    exact List.mem_cons_of_mem _ (ih x hx)

theorem storeLine_no_section (st : ParseState) (t : Str) (h : st.currSection = []) :
    storeLine st t = st := by
  simp [storeLine, h, globalKeyword, defaultsKeyword, frontendKeyword, backendKeyword]

theorem parseLine_no_section (st : ParseState) (l : Str) (h : st.currSection = [])
    (hl : isHeaderLine l = false) : parseLine st l = st := by
  rw [parseLine_eq]
  split_ifs
  · rfl
  · have hn : headerType (TrimSpace l) = none := by
      simpa [isHeaderLine] using hl
    rw [hn]
    exact storeLine_no_section st _ h

theorem foldl_no_section (ls : List Str) (st : ParseState) (h : st.currSection = [])
    (hl : ∀ l ∈ ls, isHeaderLine l = false) : ls.foldl parseLine st = st := by
  induction ls with
  | nil => rfl
  | cons l ls ih =>
    simp only [List.foldl_cons]
    rw [parseLine_no_section st l h (hl l (List.mem_cons_self _ _))]
    exact ih (fun l' hl' => hl l' (List.mem_cons_of_mem _ hl'))

theorem foldl_dropWhile_not_header (ls : List Str) (st : ParseState) (h : st.currSection = []) :
    (ls.dropWhile (fun l => !isHeaderLine l)).foldl parseLine st = ls.foldl parseLine st := by
  induction ls with
  | nil => rfl
  | cons l ls ih =>
    by_cases hl : isHeaderLine l = true
    · simp [List.dropWhile, hl]
    · have hl' : isHeaderLine l = false := by simpa using hl
      simp only [List.dropWhile, hl', Bool.not_false, List.foldl_cons]
      rw [parseLine_no_section st l h hl']
      exact ih

theorem mem_of_mem_dropWhile (q : Str → Bool) (ls : List Str) :
    ∀ l ∈ ls.dropWhile q, l ∈ ls :=
  fun _ hl => (List.dropWhile_suffix q).subset hl

/-- Every text is a sequence of newline-terminated lines followed by a last
piece without a newline character. -/
theorem text_decomposition (c : Str) :
    ∃ (ls : List Str) (tail : Str),
      c = joinLines ls ++ tail ∧ (∀ l ∈ ls, '\n' ∉ l) ∧ '\n' ∉ tail := by
  induction c with
  | nil => exact ⟨[], [], rfl, by simp, by simp⟩
  | cons a c ih =>
    obtain ⟨ls, tail, hc, hls, htail⟩ := ih
    by_cases ha : a = '\n'
    · refine ⟨[] :: ls, tail, ?_, ?_, htail⟩
      · simp [joinLines, ha, hc]
      · intro l hl
        rcases List.mem_cons.1 hl with h | h
        · simp [h]
        · exact hls l h
    · cases ls with
      | nil =>
        refine ⟨[], a :: tail, ?_, by simp, ?_⟩
        · simp [joinLines] at hc ⊢
          exact hc
        · intro hm
          rcases List.mem_cons.1 hm with h | h
          · exact ha h.symm
          · exact htail h
      | cons l ls =>
        refine ⟨(a :: l) :: ls, tail, ?_, ?_, htail⟩
        · simp [joinLines] at hc ⊢
          exact hc
        · intro l' hl'
          rcases List.mem_cons.1 hl' with h | h
          · rw [h]
            intro hm
            rcases List.mem_cons.1 hm with h' | h'
            · exact ha h'.symm
            · exact hls l (List.mem_cons_self _ _) h'
          · exact hls l' (List.mem_cons_of_mem _ h)

/-- Blank and comment lines inserted at the start of lines do not change
the result of `Parse`.  The lines `ls'` are the lines `ls` with blank and
comment lines inserted, each one ended by a newline, and `tail` is the text,
if any, that follows the last newline of both inputs; `Parse` leaves the same
parser and returns the same error value on both inputs, whatever the parser
`p` it starts from. -/
theorem inserted_skipped_lines_before_tail (ls ls' : List Str) (tail : Str)
    (p : ConfigParser) (hnl : ∀ l ∈ ls', '\n' ∉ l) (hins : InsertedSkipped ls ls') :
    Parse (readable (joinLines ls' ++ tail)) p = Parse (readable (joinLines ls ++ tail)) p := by
  have hnl' : ∀ l ∈ ls, '\n' ∉ l := fun l hl => hnl l (insertedSkipped_mem hins l hl)
  rw [Parse_readable, Parse_readable, terminatedLines_joinLines ls' tail hnl,
    terminatedLines_joinLines ls tail hnl', List.foldl_append, List.foldl_append,
    foldl_insertedSkipped hins]

/-- C8: a blank or comment line inserted after a last line that has no
newline changes the result of `Parse`.  The input `global`, `maxconn 1`
(two lines joined by a newline) leaves `GlobalSection` empty, because the
last line is never processed; with the comment line `# c`, or with one empty
line, inserted after it, `GlobalSection` holds `maxconn 1`.  The inserted
lines are a comment line and a blank line. -/
theorem skipped_line_after_unterminated_line_changes_result :
    isSkippedLine "# c".toList = true ∧ isSkippedLine [] = true ∧
    (parseText "global\nmaxconn 1".toList).GlobalSection = [] ∧
    (parseText "global\nmaxconn 1\n# c".toList).GlobalSection = ["maxconn 1".toList] ∧
    (parseText "global\nmaxconn 1\n".toList).GlobalSection = ["maxconn 1".toList] ∧
    (parseText "global\nmaxconn 1\n# c\n".toList).GlobalSection = ["maxconn 1".toList] := by
  decide

/-- C9: the lines that precede the first header line are discarded: removing
all of them from the input does not change the result of `Parse`, and an
input without any header line leaves a fresh parser with its four
collections empty and returns no error.  `tail` is the text, if any, after
the last newline character. -/
theorem content_before_first_header_discarded (ls : List Str) (tail path : Str)
    (hnl : ∀ l ∈ ls, '\n' ∉ l) (htail : '\n' ∉ tail) :
    Parse (readable (joinLines (ls.dropWhile (fun l => !isHeaderLine l)) ++ tail))
        (NewConfigParser path) =
      Parse (readable (joinLines ls ++ tail)) (NewConfigParser path) ∧
    ((∀ l ∈ ls, isHeaderLine l = false) →
      Parse (readable (joinLines ls ++ tail)) (NewConfigParser path) =
        (NewConfigParser path, none)) := by
  have hnl' : ∀ l ∈ ls.dropWhile (fun l => !isHeaderLine l), '\n' ∉ l :=
    fun l hl => hnl l (mem_of_mem_dropWhile _ ls l hl)
  have ht : terminatedLines tail = [] := terminatedLinesAux_noNewline [] tail htail
  constructor
  · rw [Parse_readable, Parse_readable, terminatedLines_joinLines _ tail hnl',
      terminatedLines_joinLines ls tail hnl, ht, List.append_nil, List.append_nil,
      foldl_dropWhile_not_header ls _ rfl]
  · intro hno
    rw [Parse_readable, terminatedLines_joinLines ls tail hnl, ht, List.append_nil,
      foldl_no_section ls _ rfl hno]

theorem content_before_first_header_discarded_witness :
    ((∀ l ∈ ["stray".toList, "# c".toList, "global".toList, "daemon".toList], '\n' ∉ l) ∧
      '\n' ∉ "frontend x".toList ∧
      Parse (readable (joinLines (["stray".toList, "# c".toList, "global".toList,
          "daemon".toList].dropWhile (fun l => !isHeaderLine l)) ++ "frontend x".toList))
          (NewConfigParser []) =
        Parse (readable (joinLines ["stray".toList, "# c".toList, "global".toList,
          "daemon".toList] ++ "frontend x".toList)) (NewConfigParser [])) ∧
    ((∀ l ∈ ["stray".toList, "maxconn 1".toList], '\n' ∉ l) ∧
      '\n' ∉ "daemon".toList ∧
      (∀ l ∈ ["stray".toList, "maxconn 1".toList], isHeaderLine l = false) ∧
      Parse (readable (joinLines ["stray".toList, "maxconn 1".toList] ++ "daemon".toList))
          (NewConfigParser "/etc/haproxy.cfg".toList) =
        (NewConfigParser "/etc/haproxy.cfg".toList, none)) :=
  ⟨⟨by decide, by decide,
      (content_before_first_header_discarded _ _ [] (by decide) (by decide)).1⟩,
    ⟨by decide, by decide, by decide,
      (content_before_first_header_discarded _ _ _ (by decide) (by decide)).2 (by decide)⟩⟩

/-! ## The stored content, block by block -/

theorem foldl_parseLine_eq_routeLine (ls : List Str) (st : ParseState) :
    ls.foldl parseLine st = (significantLines ls).foldl routeLine st := by
  induction ls generalizing st with
  | nil => rfl
  | cons l ls ih =>
    simp only [List.foldl_cons, significantLines, List.filter_cons]
    by_cases hs : isSkippedLine l = true
    · simp only [hs, Bool.not_true, Bool.false_eq_true, if_false]
      rw [parseLine_skipped st l hs]
      exact ih st
    · have hs' : isSkippedLine l = false := by simpa using hs
      simp only [hs', Bool.not_false, if_true, List.map_cons, List.foldl_cons]
      have : parseLine st l = routeLine st (TrimSpace l) := by
        rw [parseLine_eq]
        simp only [hs', Bool.false_eq_true, if_false]
        rfl
      rw [this]
      exact ih _

theorem blockContent_nil (ty : SectionType) (n : Str) : blockContent ty n [] = [] := rfl

theorem blockContent_cons (ty : SectionType) (n : Str) (b : OpenedBlock)
    (bs : List OpenedBlock) :
    blockContent ty n (b :: bs) =
      (if belongsTo ty n b = true then b.body else []) ++ blockContent ty n bs := by
  unfold blockContent
  by_cases h : belongsTo ty n b = true
  · simp [List.filter_cons, h, concatLines]
  · simp [List.filter_cons, h]

/-- The lines that the section selected by `sec` and `cur` contributes to the
section `ty`, `n` when it receives the lines `ls`. -/
theorem blockContent_openedFrom (ty : SectionType) (n : Str) (sec : Option SectionType)
    (cur : Str) (ts : List Str) :
    blockContent ty n (openedFrom sec cur ts) =
      (match sec with
       | some ty' =>
         if belongsTo ty n ⟨ty', cur, false, []⟩ = true then (splitBlocks ts).1 else []
       | none => []) ++ blockContent ty n (openBlocks cur (splitBlocks ts).2) := by
  unfold openedFrom
  cases sec with
  | none => simp
  | some ty' => simp [blockContent_cons, belongsTo]

theorem sectionOfKeyword_global : sectionOfKeyword globalKeyword = some SectionType.global := by
  decide

theorem sectionOfKeyword_defaults :
    sectionOfKeyword defaultsKeyword = some SectionType.defaults := by
  decide

theorem sectionOfKeyword_frontend :
    sectionOfKeyword frontendKeyword = some SectionType.frontend := by
  decide

theorem sectionOfKeyword_backend :
    sectionOfKeyword backendKeyword = some SectionType.backend := by
  decide

theorem storeLine_eq (st : ParseState) (t : Str) :
    storeLine st t =
      match sectionOfKeyword st.currSection with
      | some SectionType.global =>
        { st with p := { st.p with GlobalSection := st.p.GlobalSection ++ [t] } }
      | some SectionType.defaults =>
        { st with p := { st.p with DefaultsSection := st.p.DefaultsSection ++ [t] } }
      | some SectionType.frontend =>
        { st with p := { st.p with
            FrontendSection := st.p.FrontendSection.set st.currSubsection
              (st.p.FrontendSection.index st.currSubsection ++ [t]) } }
      | some SectionType.backend =>
        { st with p := { st.p with
            BackendSection := st.p.BackendSection.set st.currSubsection
              (st.p.BackendSection.index st.currSubsection ++ [t]) } }
      | none => st := by
  unfold storeLine sectionOfKeyword
  split_ifs <;> rfl

theorem index_set (m : GoMap) (k k' : Str) (v : List Str) :
    (m.set k v).index k' = if k = k' then v else m.index k' := by
  simp only [GoMap.index_eq, GoMap.get_set]
  split_ifs <;> rfl

theorem contentAt_storeLine (ty : SectionType) (n : Str) (st : ParseState) (t : Str) :
    contentAt ty n (storeLine st t).p =
      contentAt ty n st.p ++
        (match sectionOfKeyword st.currSection with
         | some ty' =>
           if belongsTo ty n ⟨ty', st.currSubsection, false, []⟩ = true then [t] else []
         | none => []) := by
  rw [storeLine_eq]
  cases hsec : sectionOfKeyword st.currSection with
  | none => simp
  | some ty' =>
    cases ty' <;> cases ty <;> simp [contentAt, belongsTo, index_set] <;>
      split_ifs <;> simp_all

theorem openFrontend_currSection (st : ParseState) (m : Str) :
    (openFrontend st m).currSection = frontendKeyword := rfl

theorem openFrontend_currSubsection (st : ParseState) (m : Str) :
    (openFrontend st m).currSubsection = m := rfl

theorem openBackend_currSection (st : ParseState) (m : Str) :
    (openBackend st m).currSection = backendKeyword := rfl

theorem openBackend_currSubsection (st : ParseState) (m : Str) :
    (openBackend st m).currSubsection = m := rfl

theorem contentAt_openFrontend (ty : SectionType) (n : Str) (st : ParseState) (m : Str) :
    contentAt ty n (openFrontend st m).p = contentAt ty n st.p := by
  cases ty <;> simp only [contentAt, openFrontend]
  split_ifs with h
  · rfl
  · rw [index_set]
    split_ifs with hk
    · subst hk
      rw [GoMap.index2_eq] at h
      rw [GoMap.index_eq]
      cases hg : st.p.FrontendSection.get m with
      | none => rfl
      | some v => simp [hg] at h
    · rfl

theorem contentAt_openBackend (ty : SectionType) (n : Str) (st : ParseState) (m : Str) :
    contentAt ty n (openBackend st m).p = contentAt ty n st.p := by
  cases ty <;> simp only [contentAt, openBackend]
  split_ifs with h
  · rfl
  · rw [index_set]
    split_ifs with hk
    · subst hk
      rw [GoMap.index2_eq] at h
      rw [GoMap.index_eq]
      cases hg : st.p.BackendSection.get m with
      | none => rfl
      | some v => simp [hg] at h
    · rfl

/-- The lines a section holds after the loop has processed the significant
lines `ts` are the lines it held before, followed by the bodies of its
blocks. -/
theorem foldl_routeLine_content (ty : SectionType) (n : Str) (ts : List Str)
    (st : ParseState) :
    contentAt ty n (ts.foldl routeLine st).p =
      contentAt ty n st.p ++
        blockContent ty n (openedFrom (sectionOfKeyword st.currSection) st.currSubsection ts) := by
  induction ts generalizing st with
  | nil =>
    rw [blockContent_openedFrom]
    cases sectionOfKeyword st.currSection <;> simp [splitBlocks, openBlocks, blockContent_nil]
  | cons t ts ih =>
    simp only [List.foldl_cons]
    rw [ih, blockContent_openedFrom, blockContent_openedFrom]
    cases ht : headerType t with
    | none =>
      simp only [routeLine, ht, splitBlocks, Option.isSome_none, Bool.false_eq_true, if_false]
      rw [contentAt_storeLine, storeLine_eq]
      cases hsec : sectionOfKeyword st.currSection with
      | none => simp [hsec]
      | some ty' =>
        cases ty' <;> simp only [hsec] <;> split_ifs <;> simp
    | some ty' =>
      have hsplit : splitBlocks (t :: ts) = ([], ⟨t, (splitBlocks ts).1⟩ :: (splitBlocks ts).2) := by
        simp [splitBlocks, ht]
      have hnil : (match sectionOfKeyword st.currSection with
          | some ty' => if belongsTo ty n ⟨ty', st.currSubsection, false, []⟩ = true
              then ([] : List Str) else []
          | none => []) = [] := by
        cases sectionOfKeyword st.currSection <;> simp
      rw [hsplit]
      simp only [hnil, List.nil_append]
      cases ty' with
      | global =>
        simp [routeLine, ht, sectionOfKeyword_global, openBlocks, blockContent_cons, belongsTo]
      | defaults =>
        simp [routeLine, ht, sectionOfKeyword_defaults, openBlocks, blockContent_cons, belongsTo]
      | frontend =>
        cases hn : headerName t with
        | none =>
          simp [routeLine, ht, hn, sectionOfKeyword_frontend, openBlocks, blockContent_cons,
            belongsTo]
        | some m =>
          simp [routeLine, ht, hn, contentAt_openFrontend, openFrontend_currSection,
            openFrontend_currSubsection,
            sectionOfKeyword_frontend, openBlocks, blockContent_cons, belongsTo]
      | backend =>
        cases hn : headerName t with
        | none =>
          simp [routeLine, ht, hn, sectionOfKeyword_backend, openBlocks, blockContent_cons,
            belongsTo]
        | some m =>
          simp [routeLine, ht, hn, contentAt_openBackend, openBackend_currSection,
            openBackend_currSubsection,
            sectionOfKeyword_backend, openBlocks, blockContent_cons, belongsTo]

theorem storeLine_currSection (st : ParseState) (t : Str) :
    (storeLine st t).currSection = st.currSection := by
  unfold storeLine
  split_ifs <;> rfl

theorem storeLine_currSubsection (st : ParseState) (t : Str) :
    (storeLine st t).currSubsection = st.currSubsection := by
  unfold storeLine
  split_ifs <;> rfl

theorem namedPresent_nil (ty : SectionType) (n : Str) : namedPresent ty n [] = false := rfl

theorem namedPresent_cons (ty : SectionType) (n : Str) (b : OpenedBlock)
    (bs : List OpenedBlock) :
    namedPresent ty n (b :: bs) =
      (decide (b.type = ty ∧ b.name = n ∧ (b.named = true ∨ b.body ≠ [])) ||
        namedPresent ty n bs) := by
  simp [namedPresent]

theorem isSome_get_set (m : GoMap) (k k' : Str) (v : List Str) :
    ((m.set k v).get k').isSome = (decide (k = k') || (m.get k').isSome) := by
  rw [GoMap.get_set]
  split_ifs with h <;> simp [h]

theorem presentAt_storeLine (ty : SectionType) (hty : ty = SectionType.frontend ∨
    ty = SectionType.backend) (n : Str) (st : ParseState) (t : Str) :
    presentAt ty n (storeLine st t).p =
      (presentAt ty n st.p ||
        decide (sectionOfKeyword st.currSection = some ty ∧ st.currSubsection = n)) := by
  rw [storeLine_eq]
  cases hsec : sectionOfKeyword st.currSection with
  | none => simp
  | some ty' =>
    rcases hty with rfl | rfl <;> cases ty' <;>
      simp [presentAt, isSome_get_set, Bool.or_comm]

theorem presentAt_openFrontend (ty : SectionType) (n : Str) (st : ParseState) (m : Str) :
    presentAt ty n (openFrontend st m).p =
      (presentAt ty n st.p || decide (ty = SectionType.frontend ∧ m = n)) := by
  cases ty <;> simp only [presentAt, openFrontend] <;> try simp
  split_ifs with h
  · by_cases hk : m = n
    · subst hk
      rw [GoMap.index2_eq] at h
      simp at h
      simp [h]
    · simp [hk]
  · rw [isSome_get_set, Bool.or_comm]

theorem presentAt_openBackend (ty : SectionType) (n : Str) (st : ParseState) (m : Str) :
    presentAt ty n (openBackend st m).p =
      (presentAt ty n st.p || decide (ty = SectionType.backend ∧ m = n)) := by
  cases ty <;> simp only [presentAt, openBackend] <;> try simp
  split_ifs with h
  · by_cases hk : m = n
    · subst hk
      rw [GoMap.index2_eq] at h
      simp at h
      simp [h]
    · simp [hk]
  · rw [isSome_get_set, Bool.or_comm]

theorem namedPresent_openedFrom (ty : SectionType) (n : Str) (sec : Option SectionType)
    (cur : Str) (ts : List Str) :
    namedPresent ty n (openedFrom sec cur ts) =
      (decide (sec = some ty ∧ cur = n ∧ (splitBlocks ts).1 ≠ []) ||
        namedPresent ty n (openBlocks cur (splitBlocks ts).2)) := by
  unfold openedFrom
  cases sec with
  | none => simp
  | some ty' => simp [namedPresent_cons]

/-- A named section has an entry after the loop has processed the significant
lines `ts` when it had one before, or when one of its blocks has a header
that names it or has content. -/
theorem foldl_routeLine_present (ty : SectionType) (hty : ty = SectionType.frontend ∨
    ty = SectionType.backend) (n : Str) (ts : List Str) (st : ParseState) :
    presentAt ty n (ts.foldl routeLine st).p =
      (presentAt ty n st.p ||
        namedPresent ty n
          (openedFrom (sectionOfKeyword st.currSection) st.currSubsection ts)) := by
  induction ts generalizing st with
  | nil => simp [namedPresent_openedFrom, splitBlocks, openBlocks, namedPresent_nil]
  | cons t ts ih =>
    simp only [List.foldl_cons]
    rw [ih, namedPresent_openedFrom, namedPresent_openedFrom]
    cases ht : headerType t with
    | none =>
      simp only [routeLine, ht, splitBlocks, Option.isSome_none, Bool.false_eq_true, if_false]
      rw [presentAt_storeLine ty hty, storeLine_currSection, storeLine_currSubsection]
      by_cases hc : sectionOfKeyword st.currSection = some ty ∧ st.currSubsection = n
      · simp [hc]
      · have hc' : ¬ (sectionOfKeyword st.currSection = some ty ∧ st.currSubsection = n ∧
            ¬ (splitBlocks ts).1 = []) := fun h => hc ⟨h.1, h.2.1⟩
        simp [hc, hc']
    | some ty' =>
      have hsplit : splitBlocks (t :: ts) = ([], ⟨t, (splitBlocks ts).1⟩ :: (splitBlocks ts).2) := by
        simp [splitBlocks, ht]
      rw [hsplit]
      cases ty' with
      | global =>
        rcases hty with rfl | rfl <;>
          simp [routeLine, ht, sectionOfKeyword_global, openBlocks, namedPresent_cons]
      | defaults =>
        rcases hty with rfl | rfl <;>
          simp [routeLine, ht, sectionOfKeyword_defaults, openBlocks, namedPresent_cons]
      | frontend =>
        cases hn : headerName t with
        | none =>
          rcases hty with rfl | rfl <;>
            simp [routeLine, ht, hn, sectionOfKeyword_frontend, openBlocks, namedPresent_cons]
        | some m =>
          rcases hty with rfl | rfl <;>
            simp [routeLine, ht, hn, presentAt_openFrontend, openFrontend_currSection,
              openFrontend_currSubsection, sectionOfKeyword_frontend, openBlocks,
              namedPresent_cons]
          by_cases hk : m = n <;> simp [hk]
      | backend =>
        cases hn : headerName t with
        | none =>
          rcases hty with rfl | rfl <;>
            simp [routeLine, ht, hn, sectionOfKeyword_backend, openBlocks, namedPresent_cons]
        | some m =>
          rcases hty with rfl | rfl <;>
            simp [routeLine, ht, hn, presentAt_openBackend, openBackend_currSection,
              openBackend_currSubsection, sectionOfKeyword_backend, openBlocks,
              namedPresent_cons]
          by_cases hk : m = n <;> simp [hk]

/-! ## The stored content of a parsed text -/

theorem textLinesAux_eq_terminated (acc c : Str) (h0 : c = [] → acc = [])
    (h1 : c ≠ [] → c.getLast? = some '\n') :
    textLinesAux acc c = terminatedLinesAux acc c := by
  induction c generalizing acc with
  | nil => simp [textLinesAux, terminatedLinesAux, h0 rfl]
  | cons a c ih =>
    have hlast := h1 (List.cons_ne_nil a c)
    by_cases ha : a = '\n'
    · simp only [textLinesAux, terminatedLinesAux, ha, if_true]
      congr 1
      apply ih
      · intro _; rfl
      · intro hc
        obtain ⟨b, c', rfl⟩ := List.exists_cons_of_ne_nil hc
        simpa [List.getLast?_cons_cons] using hlast
    · simp only [textLinesAux, terminatedLinesAux, ha, if_false]
      have hc : c ≠ [] := by
        intro hc
        subst hc
        simp at hlast
        exact ha hlast
      apply ih
      · intro e; exact absurd e hc
      · intro _
        obtain ⟨b, c', rfl⟩ := List.exists_cons_of_ne_nil hc
        simpa [List.getLast?_cons_cons] using hlast

theorem textLines_eq_terminatedLines (c : Str) (h : NewlineTerminated c) :
    textLines c = terminatedLines c := by
  apply textLinesAux_eq_terminated
  · intro _; rfl
  · intro hc
    rcases h with h | h
    · exact absurd h hc
    · exact h

theorem parseText_content (ty : SectionType) (n : Str) (c : Str) :
    contentAt ty n (parseText c) = blockContent ty n (blocksOf (terminatedLines c)) := by
  rw [parseText_eq, foldl_parseLine_eq_routeLine, foldl_routeLine_content]
  have h0 : contentAt ty n initState.p = [] := by
    cases ty <;> rfl
  rw [h0]
  rfl

theorem parseText_present (ty : SectionType) (hty : ty = SectionType.frontend ∨
    ty = SectionType.backend) (n : Str) (c : Str) :
    presentAt ty n (parseText c) = namedPresent ty n (blocksOf (terminatedLines c)) := by
  rw [parseText_eq, foldl_parseLine_eq_routeLine, foldl_routeLine_present ty hty]
  have h0 : presentAt ty n initState.p = false := by
    cases ty <;> rfl
  rw [h0]
  rfl

theorem sectionContent_eq (ty : SectionType) (hty : ty = SectionType.global ∨
    ty = SectionType.defaults) (n : Str) (bs : List OpenedBlock) :
    sectionContent ty bs = blockContent ty n bs := by
  unfold sectionContent blockContent
  congr 2
  apply List.filter_congr
  intro b _
  rcases hty with rfl | rfl <;> simp [belongsTo]

theorem namedContent_eq (ty : SectionType) (hty : ty = SectionType.frontend ∨
    ty = SectionType.backend) (n : Str) (bs : List OpenedBlock) :
    namedContent ty n bs = blockContent ty n bs := by
  unfold namedContent blockContent
  congr 2
  apply List.filter_congr
  intro b _
  rcases hty with rfl | rfl <;> simp [belongsTo]

theorem parseText_frontend_get (c n : Str) :
    (parseText c).FrontendSection.get n =
      if namedPresent SectionType.frontend n (blocksOf (terminatedLines c)) = true then
        some (namedContent SectionType.frontend n (blocksOf (terminatedLines c)))
      else none := by
  rw [GoMap.get_eq_of_index, namedContent_eq _ (Or.inl rfl),
    ← parseText_content, ← parseText_present _ (Or.inl rfl)]
  rfl

theorem parseText_backend_get (c n : Str) :
    (parseText c).BackendSection.get n =
      if namedPresent SectionType.backend n (blocksOf (terminatedLines c)) = true then
        some (namedContent SectionType.backend n (blocksOf (terminatedLines c)))
      else none := by
  rw [GoMap.get_eq_of_index, namedContent_eq _ (Or.inr rfl),
    ← parseText_content, ← parseText_present _ (Or.inr rfl)]
  rfl

theorem parseText_global (c : Str) :
    (parseText c).GlobalSection =
      sectionContent SectionType.global (blocksOf (terminatedLines c)) := by
  rw [sectionContent_eq _ (Or.inl rfl) [], ← parseText_content]
  rfl

theorem parseText_defaults (c : Str) :
    (parseText c).DefaultsSection =
      sectionContent SectionType.defaults (blocksOf (terminatedLines c)) := by
  rw [sectionContent_eq _ (Or.inr rfl) [], ← parseText_content]
  rfl

/-- C2 (as stated, refuted): in the text `frontend a`, `x`, `global`, `y`,
`frontend a`, `z` the lines between the first header `frontend a` and the
next header are `x`, and the lines after the second header `frontend a` are
`z`, but the content stored for the frontend `a` is `x`, `z`: it is not the
run of lines that follows a header of the section. -/
theorem ordering_as_stated_fails :
    (splitBlocks (significantLines (textLines
        "frontend a\nx\nglobal\ny\nfrontend a\nz\n".toList))).2 =
      [⟨"frontend a".toList, ["x".toList]⟩, ⟨"global".toList, ["y".toList]⟩,
       ⟨"frontend a".toList, ["z".toList]⟩] ∧
    (parseText "frontend a\nx\nglobal\ny\nfrontend a\nz\n".toList).FrontendSection.get
        "a".toList = some ["x".toList, "z".toList] ∧
    ¬ (∀ b ∈ blocksOf (textLines "frontend a\nx\nglobal\ny\nfrontend a\nz\n".toList),
        contentAt b.type b.name
          (parseText "frontend a\nx\nglobal\ny\nfrontend a\nz\n".toList) = b.body) := by
  decide

/-- C2 (amended): for every newline-terminated input, the content stored for
a section is the concatenation, in file order, of the blocks of that section,
a block being the non-blank, non-comment trimmed lines between a header line
of the section and the next header line (or the end of the input).  This holds
for `GlobalSection`, for `DefaultsSection` and for every entry of
`FrontendSection` and `BackendSection`; a frontend or backend has an entry
exactly when one of its blocks has a header that names it or has content. -/
theorem stored_content_is_blocks_in_file_order (c : Str) (h : NewlineTerminated c) :
    (parseText c).GlobalSection =
      sectionContent SectionType.global (blocksOf (textLines c)) ∧
    (parseText c).DefaultsSection =
      sectionContent SectionType.defaults (blocksOf (textLines c)) ∧
    (∀ n, (parseText c).FrontendSection.get n =
      if namedPresent SectionType.frontend n (blocksOf (textLines c)) = true then
        some (namedContent SectionType.frontend n (blocksOf (textLines c)))
      else none) ∧
    (∀ n, (parseText c).BackendSection.get n =
      if namedPresent SectionType.backend n (blocksOf (textLines c)) = true then
        some (namedContent SectionType.backend n (blocksOf (textLines c)))
      else none) := by
  rw [textLines_eq_terminatedLines c h]
  exact ⟨parseText_global c, parseText_defaults c, parseText_frontend_get c,
    parseText_backend_get c⟩

theorem stored_content_is_blocks_in_file_order_witness :
    NewlineTerminated "global\na\nfrontend f\nx\nglobal\nb\nfrontend f\ny\n".toList ∧
    ((parseText "global\na\nfrontend f\nx\nglobal\nb\nfrontend f\ny\n".toList).GlobalSection =
      sectionContent SectionType.global
        (blocksOf (textLines "global\na\nfrontend f\nx\nglobal\nb\nfrontend f\ny\n".toList)) ∧
    (parseText "global\na\nfrontend f\nx\nglobal\nb\nfrontend f\ny\n".toList).DefaultsSection =
      sectionContent SectionType.defaults
        (blocksOf (textLines "global\na\nfrontend f\nx\nglobal\nb\nfrontend f\ny\n".toList)) ∧
    (∀ n, (parseText "global\na\nfrontend f\nx\nglobal\nb\nfrontend f\ny\n".toList).FrontendSection.get n =
      if namedPresent SectionType.frontend n
          (blocksOf (textLines "global\na\nfrontend f\nx\nglobal\nb\nfrontend f\ny\n".toList)) = true then
        some (namedContent SectionType.frontend n
          (blocksOf (textLines "global\na\nfrontend f\nx\nglobal\nb\nfrontend f\ny\n".toList)))
      else none) ∧
    (∀ n, (parseText "global\na\nfrontend f\nx\nglobal\nb\nfrontend f\ny\n".toList).BackendSection.get n =
      if namedPresent SectionType.backend n
          (blocksOf (textLines "global\na\nfrontend f\nx\nglobal\nb\nfrontend f\ny\n".toList)) = true then
        some (namedContent SectionType.backend n
          (blocksOf (textLines "global\na\nfrontend f\nx\nglobal\nb\nfrontend f\ny\n".toList)))
      else none)) :=
  ⟨Or.inr (by decide),
    stored_content_is_blocks_in_file_order _ (Or.inr (by decide))⟩

theorem namedPresent_of_named (ty : SectionType) (n : Str) (bs : List OpenedBlock)
    (h : ∃ b ∈ bs, b.type = ty ∧ b.name = n ∧ b.named = true) :
    namedPresent ty n bs = true := by
  obtain ⟨b, hb, h1, h2, h3⟩ := h
  unfold namedPresent
  rw [List.any_eq_true]
  exact ⟨b, hb, by simp [h1, h2, h3]⟩

theorem concatLines_eq_nil (xs : List (List Str)) (h : ∀ x ∈ xs, x = []) :
    concatLines xs = [] := by
  induction xs with
  | nil => rfl
  | cons x xs ih =>
    simp only [concatLines]
    rw [h x (List.mem_cons_self _ _), ih (fun y hy => h y (List.mem_cons_of_mem _ hy))]
    rfl

theorem namedContent_eq_nil (ty : SectionType) (n : Str) (bs : List OpenedBlock)
    (h : ∀ b ∈ bs, b.type = ty → b.name = n → b.body = []) :
    namedContent ty n bs = [] := by
  unfold namedContent
  apply concatLines_eq_nil
  intro x hx
  obtain ⟨b, hb, rfl⟩ := List.mem_map.1 hx
  have hb' := List.mem_filter.1 hb
  have hd : b.type = ty ∧ b.name = n := by simpa using hb'.2
  exact h b hb'.1 hd.1 hd.2

/-- C5 (as stated, refuted): in the text `frontend a`, `x`, `frontend a`,
`y`, `frontend`, `z` the name `a` appears in two header lines, followed by
the content lines `x` and `y`, but the entry of `a` holds `x`, `y`, `z`: the
line after the header without a name is appended to it as well. -/
theorem repeated_name_as_stated_fails :
    (splitBlocks (significantLines (textLines
        "frontend a\nx\nfrontend a\ny\nfrontend\nz\n".toList))).2 =
      [⟨"frontend a".toList, ["x".toList]⟩, ⟨"frontend a".toList, ["y".toList]⟩,
       ⟨"frontend".toList, ["z".toList]⟩] ∧
    concatLines (((splitBlocks (significantLines (textLines
        "frontend a\nx\nfrontend a\ny\nfrontend\nz\n".toList))).2.filter
          (fun b => headerType b.header = some SectionType.frontend ∧
            headerName b.header = some "a".toList)).map Block.body) =
      ["x".toList, "y".toList] ∧
    (parseText "frontend a\nx\nfrontend a\ny\nfrontend\nz\n".toList).FrontendSection.get
        "a".toList = some ["x".toList, "y".toList, "z".toList] ∧
    (parseText "frontend a\nx\nfrontend a\ny\nfrontend\nz\n".toList).FrontendSection.get
        "a".toList ≠
      some (concatLines (((splitBlocks (significantLines (textLines
        "frontend a\nx\nfrontend a\ny\nfrontend\nz\n".toList))).2.filter
          (fun b => headerType b.header = some SectionType.frontend ∧
            headerName b.header = some "a".toList)).map Block.body)) := by
  decide

theorem filter_key_length (es : List (Str × List Str)) (hnd : (keysOf es).Nodup) (k : Str)
    (hk : k ∈ keysOf es) : (es.filter (fun e => decide (e.1 = k))).length = 1 := by
  induction es with
  | nil => simp [keysOf] at hk
  | cons e rest ih =>
    obtain ⟨a, w⟩ := e
    simp only [keysOf, List.map_cons, List.nodup_cons, List.mem_cons] at hnd hk
    by_cases h : a = k
    · subst h
      have hnone : rest.filter (fun e => decide (e.1 = a)) = [] := by
        rw [List.filter_eq_nil_iff]
        intro e he hd
        apply hnd.1
        have : e.1 = a := by simpa using hd
        rw [← this]
        exact List.mem_map_of_mem Prod.fst he
      simp [List.filter_cons, hnone]
    · have hk' : k ∈ List.map Prod.fst rest := by
        rcases hk with hk | hk
        · exact absurd hk.symm h
        · exact hk
      simp only [List.filter_cons, h, decide_False, Bool.false_eq_true, if_false]
      exact ih hnd.2 hk'

theorem GoMap.single_entry_of_get (m : GoMap) (k : Str) (v : List Str)
    (h : m.get k = some v) : (m.entries.filter (fun e => decide (e.1 = k))).length = 1 := by
  apply filter_key_length m.entries m.nodup
  apply (lookupEntries_isSome m.entries k).1
  show (m.get k).isSome = true
  rw [h]
  rfl

/-- C5 (amended): for every newline-terminated input and every name that
appears in one or more `frontend` header lines, `FrontendSection` has exactly
one entry for the name, and its content is the concatenation, in file order,
of the content lines that follow each header line under which the name is in
force: the `frontend` header lines that carry the name, and the `frontend`
header lines without a name token read while the name is the one announced
most recently.  The same holds for `backend` header lines and
`BackendSection`. -/
theorem repeated_names_accumulate (c n : Str) (h : NewlineTerminated c) :
    ((∃ b ∈ blocksOf (textLines c),
        b.type = SectionType.frontend ∧ b.name = n ∧ b.named = true) →
      ((parseText c).FrontendSection.entries.filter (fun e => decide (e.1 = n))).length = 1 ∧
      (parseText c).FrontendSection.get n =
        some (namedContent SectionType.frontend n (blocksOf (textLines c)))) ∧
    ((∃ b ∈ blocksOf (textLines c),
        b.type = SectionType.backend ∧ b.name = n ∧ b.named = true) →
      ((parseText c).BackendSection.entries.filter (fun e => decide (e.1 = n))).length = 1 ∧
      (parseText c).BackendSection.get n =
        some (namedContent SectionType.backend n (blocksOf (textLines c)))) := by
  rw [textLines_eq_terminatedLines c h]
  constructor
  · intro hex
    have hget : (parseText c).FrontendSection.get n =
        some (namedContent SectionType.frontend n (blocksOf (terminatedLines c))) := by
      rw [parseText_frontend_get, namedPresent_of_named _ _ _ hex]
      rfl
    exact ⟨GoMap.single_entry_of_get _ _ _ hget, hget⟩
  · intro hex
    have hget : (parseText c).BackendSection.get n =
        some (namedContent SectionType.backend n (blocksOf (terminatedLines c))) := by
      rw [parseText_backend_get, namedPresent_of_named _ _ _ hex]
      rfl
    exact ⟨GoMap.single_entry_of_get _ _ _ hget, hget⟩

theorem repeated_names_accumulate_witness :
    NewlineTerminated "frontend a\nx\nbackend a\nu\nfrontend a\ny\nfrontend\nz\n".toList ∧
    (∃ b ∈ blocksOf (textLines
        "frontend a\nx\nbackend a\nu\nfrontend a\ny\nfrontend\nz\n".toList),
      b.type = SectionType.frontend ∧ b.name = "a".toList ∧ b.named = true) ∧
    (((parseText "frontend a\nx\nbackend a\nu\nfrontend a\ny\nfrontend\nz\n".toList).FrontendSection.entries.filter
        (fun e => decide (e.1 = "a".toList))).length = 1 ∧
      (parseText "frontend a\nx\nbackend a\nu\nfrontend a\ny\nfrontend\nz\n".toList).FrontendSection.get
        "a".toList =
      some (namedContent SectionType.frontend "a".toList (blocksOf (textLines
        "frontend a\nx\nbackend a\nu\nfrontend a\ny\nfrontend\nz\n".toList)))) ∧
    (∃ b ∈ blocksOf (textLines
        "frontend a\nx\nbackend a\nu\nfrontend a\ny\nfrontend\nz\n".toList),
      b.type = SectionType.backend ∧ b.name = "a".toList ∧ b.named = true) ∧
    (((parseText "frontend a\nx\nbackend a\nu\nfrontend a\ny\nfrontend\nz\n".toList).BackendSection.entries.filter
        (fun e => decide (e.1 = "a".toList))).length = 1 ∧
      (parseText "frontend a\nx\nbackend a\nu\nfrontend a\ny\nfrontend\nz\n".toList).BackendSection.get
        "a".toList =
      some (namedContent SectionType.backend "a".toList (blocksOf (textLines
        "frontend a\nx\nbackend a\nu\nfrontend a\ny\nfrontend\nz\n".toList)))) :=
  ⟨Or.inr (by decide), by decide,
    (repeated_names_accumulate _ _ (Or.inr (by decide))).1 (by decide), by decide,
    (repeated_names_accumulate _ _ (Or.inr (by decide))).2 (by decide)⟩

/-- C6 (as stated, refuted): in the text `frontend X`, `global`,
`frontend X`, `foo` the first header line `frontend X` is immediately followed
by another header line, but `Frontend("X")` returns `(["foo"], true)`: the
content that follows the second header `frontend X` is in the entry. -/
theorem empty_section_as_stated_fails :
    (splitBlocks (significantLines (textLines
        "frontend X\nglobal\nfrontend X\nfoo\n".toList))).2 =
      [⟨"frontend X".toList, []⟩, ⟨"global".toList, []⟩,
       ⟨"frontend X".toList, ["foo".toList]⟩] ∧
    (Frontend (parseText "frontend X\nglobal\nfrontend X\nfoo\n".toList) "X".toList).1 =
      (["foo".toList], true) ∧
    (Frontend (parseText "frontend X\nglobal\nfrontend X\nfoo\n".toList) "X".toList).1 ≠
      ([], true) := by
  decide

/-- C6 (amended): for every newline-terminated input in which a header line
`frontend X` occurs and every header line under which the frontend `X` is in
force is immediately followed (blank and comment lines apart) by another
header line or by the end of the input, `Frontend("X")` returns
`(empty, true)`; likewise for `backend X` and `Backend("X")`. -/
theorem section_without_content_is_present_and_empty (c x : Str)
    (h : NewlineTerminated c) :
    ((∃ b ∈ blocksOf (textLines c),
        b.type = SectionType.frontend ∧ b.name = x ∧ b.named = true) →
      (∀ b ∈ blocksOf (textLines c),
        b.type = SectionType.frontend → b.name = x → b.body = []) →
      (Frontend (parseText c) x).1 = ([], true)) ∧
    ((∃ b ∈ blocksOf (textLines c),
        b.type = SectionType.backend ∧ b.name = x ∧ b.named = true) →
      (∀ b ∈ blocksOf (textLines c),
        b.type = SectionType.backend → b.name = x → b.body = []) →
      (Backend (parseText c) x).1 = ([], true)) := by
  rw [textLines_eq_terminatedLines c h]
  constructor
  · intro hex hempty
    rw [Frontend_fst, parseText_frontend_get, namedPresent_of_named _ _ _ hex,
      namedContent_eq_nil _ _ _ hempty]
    rfl
  · intro hex hempty
    rw [Backend_fst, parseText_backend_get, namedPresent_of_named _ _ _ hex,
      namedContent_eq_nil _ _ _ hempty]
    rfl

theorem section_without_content_is_present_and_empty_witness :
    NewlineTerminated "frontend X\nbackend X\n# none\nglobal\nmaxconn 1\nfrontend X\n".toList ∧
    (∃ b ∈ blocksOf (textLines
        "frontend X\nbackend X\n# none\nglobal\nmaxconn 1\nfrontend X\n".toList),
      b.type = SectionType.frontend ∧ b.name = "X".toList ∧ b.named = true) ∧
    (∀ b ∈ blocksOf (textLines
        "frontend X\nbackend X\n# none\nglobal\nmaxconn 1\nfrontend X\n".toList),
      b.type = SectionType.frontend → b.name = "X".toList → b.body = []) ∧
    (Frontend (parseText
        "frontend X\nbackend X\n# none\nglobal\nmaxconn 1\nfrontend X\n".toList)
      "X".toList).1 = ([], true) ∧
    (∃ b ∈ blocksOf (textLines
        "frontend X\nbackend X\n# none\nglobal\nmaxconn 1\nfrontend X\n".toList),
      b.type = SectionType.backend ∧ b.name = "X".toList ∧ b.named = true) ∧
    (∀ b ∈ blocksOf (textLines
        "frontend X\nbackend X\n# none\nglobal\nmaxconn 1\nfrontend X\n".toList),
      b.type = SectionType.backend → b.name = "X".toList → b.body = []) ∧
    (Backend (parseText
        "frontend X\nbackend X\n# none\nglobal\nmaxconn 1\nfrontend X\n".toList)
      "X".toList).1 = ([], true) :=
  ⟨Or.inr (by decide), by decide, by decide,
    (section_without_content_is_present_and_empty _ _ (Or.inr (by decide))).1
      (by decide) (by decide),
    by decide, by decide,
    (section_without_content_is_present_and_empty _ _ (Or.inr (by decide))).2
      (by decide) (by decide)⟩

/-! ## Relations between the queries -/

theorem lookupEntries_perm (es₁ es₂ : List (Str × List Str)) (h : es₁.Perm es₂)
    (hnd : (keysOf es₁).Nodup) (k : Str) : lookupEntries es₁ k = lookupEntries es₂ k := by
  have hnd₂ : (keysOf es₂).Nodup := (h.map Prod.fst).nodup_iff.1 hnd
  apply Option.ext
  intro v
  constructor
  · intro hv
    exact lookupEntries_of_mem es₂ hnd₂ k v (h.subset (lookupEntries_mem es₁ k v hv))
  · intro hv
    exact lookupEntries_of_mem es₁ hnd k v (h.symm.subset (lookupEntries_mem es₂ k v hv))

theorem findInMapLoop_substr_empty (es : List (Str × List Str)) (hnd : (keysOf es).Nodup)
    (s k : Str) :
    (findInMapLoop es s false GoMap.empty).get k =
      if s <:+: k then lookupEntries es k else none := by
  simp only [findInMapLoop_substr es hnd, GoMap.get_empty, Contains_iff]
  split
  · simp
  · rfl

theorem GoMap.mem_keys_iff (m : GoMap) (k : Str) : k ∈ m.keys ↔ (m.get k).isSome = true :=
  (lookupEntries_isSome m.entries k).symm

/-- C11: for every parser, `Backends("")` returns every entry of
`BackendSection` with its content, and for every string `s` every entry of
`Backends(s)` is an entry of `Backends("")` with the same content and has a
key that contains `s`; the same holds for `Frontends` and `FrontendSection`. -/
theorem substring_query_monotone (p : ConfigParser) (s : Str) :
    (∀ k, (Backends p []).1.get k = p.BackendSection.get k) ∧
    (∀ k contents, (Backends p s).1.get k = some contents →
      (Backends p []).1.get k = some contents ∧ s <:+: k) ∧
    (∀ k, (Frontends p []).1.get k = p.FrontendSection.get k) ∧
    (∀ k contents, (Frontends p s).1.get k = some contents →
      (Frontends p []).1.get k = some contents ∧ s <:+: k) := by
  have hall : ∀ (m : GoMap) (k : Str), (findInMap p m [] false).1.get k = m.get k := by
    intro m k
    rw [findInMap_substr_get]
    simp
  have hsub : ∀ (m : GoMap) (k : Str) (contents : List Str),
      (findInMap p m s false).1.get k = some contents →
        (findInMap p m [] false).1.get k = some contents ∧ s <:+: k := by
    intro m k contents hk
    rw [findInMap_substr_get] at hk
    rw [hall]
    split at hk
    · next hs => exact ⟨hk, hs⟩
    · exact absurd hk (by simp)
  exact ⟨hall p.BackendSection, hsub p.BackendSection, hall p.FrontendSection,
    hsub p.FrontendSection⟩

theorem substring_query_monotone_witness :
    (Backends (parseText "backend be_a\nserver s1\nbackend other\nserver s2\n".toList)
        "be_".toList).1.get "be_a".toList = some ["server s1".toList] ∧
    (Backends (parseText "backend be_a\nserver s1\nbackend other\nserver s2\n".toList)
        []).1.get "be_a".toList = some ["server s1".toList] ∧
    "be_".toList <:+: "be_a".toList :=
  ⟨by decide,
    ((substring_query_monotone
      (parseText "backend be_a\nserver s1\nbackend other\nserver s2\n".toList)
      "be_".toList).2.1 "be_a".toList ["server s1".toList] (by decide)).1,
    ((substring_query_monotone
      (parseText "backend be_a\nserver s1\nbackend other\nserver s2\n".toList)
      "be_".toList).2.1 "be_a".toList ["server s1".toList] (by decide)).2⟩

/-- C13: for every parser, every string `s` and every name `n` that is a key
of `Backends(s)`, `Backend(n)` returns `(Backends(s)[n], true)`; likewise for
every key `n` of `Frontends(s)`, `Frontend(n)` returns
`(Frontends(s)[n], true)`. -/
theorem exact_and_substring_queries_agree (p : ConfigParser) (s n : Str) :
    (n ∈ (Backends p s).1.keys → (Backend p n).1 = ((Backends p s).1.index n, true)) ∧
    (n ∈ (Frontends p s).1.keys → (Frontend p n).1 = ((Frontends p s).1.index n, true)) := by
  have key : ∀ (m : GoMap), n ∈ (findInMap p m s false).1.keys →
      (match m.get n with
        | some contents => (contents, true)
        | none => (([] : List Str), false)) = ((findInMap p m s false).1.index n, true) := by
    intro m hn
    rw [GoMap.mem_keys_iff, findInMap_substr_get] at hn
    rw [GoMap.index_eq, findInMap_substr_get]
    split at hn
    · next hs =>
      simp only [hs, if_true]
      cases hg : m.get n with
      | none => rw [hg] at hn; exact absurd hn (by simp)
      | some v => rfl
    · exact absurd hn (by simp)
  constructor
  · intro hn
    rw [Backend_fst]
    exact key p.BackendSection hn
  · intro hn
    rw [Frontend_fst]
    exact key p.FrontendSection hn

theorem exact_and_substring_queries_agree_witness :
    ("be_a".toList ∈ (Backends (parseText
        "backend be_a\nserver s1\nfrontend fe_a\nbind :80\n".toList) "e_".toList).1.keys ∧
      (Backend (parseText "backend be_a\nserver s1\nfrontend fe_a\nbind :80\n".toList)
        "be_a".toList).1 =
        ((Backends (parseText "backend be_a\nserver s1\nfrontend fe_a\nbind :80\n".toList)
          "e_".toList).1.index "be_a".toList, true)) ∧
    ("fe_a".toList ∈ (Frontends (parseText
        "backend be_a\nserver s1\nfrontend fe_a\nbind :80\n".toList) "e_".toList).1.keys ∧
      (Frontend (parseText "backend be_a\nserver s1\nfrontend fe_a\nbind :80\n".toList)
        "fe_a".toList).1 =
        ((Frontends (parseText "backend be_a\nserver s1\nfrontend fe_a\nbind :80\n".toList)
          "e_".toList).1.index "fe_a".toList, true)) :=
  ⟨⟨by decide, (exact_and_substring_queries_agree _ _ _).1 (by decide)⟩,
    ⟨by decide, (exact_and_substring_queries_agree _ _ _).2 (by decide)⟩⟩

/-! ## Independence of the enumeration order -/

theorem findInMapLoop_get_perm (es₁ es₂ : List (Str × List Str)) (h : es₁.Perm es₂)
    (hnd : (keysOf es₁).Nodup) (s : Str) (strict : Bool) (k : Str) :
    (findInMapLoop es₁ s strict GoMap.empty).get k =
      (findInMapLoop es₂ s strict GoMap.empty).get k := by
  have hnd₂ : (keysOf es₂).Nodup := (h.map Prod.fst).nodup_iff.1 hnd
  cases strict with
  | true =>
    rw [findInMapLoop_strict, findInMapLoop_strict, lookupEntries_perm es₁ es₂ h hnd]
  | false =>
    rw [findInMapLoop_substr_empty es₁ hnd, findInMapLoop_substr_empty es₂ hnd₂,
      lookupEntries_perm es₁ es₂ h hnd]

/-- C17: the result of `findInMap` does not depend on the order in which the
`range` loop visits the entries of the map: for every map `m`, every argument
`s`, both modes, and any two enumeration orders `es₁` and `es₂` of the entries
of `m`, the two results hold the same content for every key, and so does the
result of `findInMap` itself.  Issuing one of the four queries a second time,
on the parser left by the first call, returns the same result. -/
theorem query_results_do_not_depend_on_order (p : ConfigParser) (m : GoMap)
    (es₁ es₂ : List (Str × List Str)) (s : Str) (strict : Bool)
    (h₁ : es₁.Perm m.entries) (h₂ : es₂.Perm m.entries) :
    (∀ k, (findInMapLoop es₁ s strict GoMap.empty).get k =
      (findInMapLoop es₂ s strict GoMap.empty).get k) ∧
    (∀ k, (findInMapLoop es₁ s strict GoMap.empty).get k =
      (findInMap p m s strict).1.get k) ∧
    (Frontend (Frontend p s).2 s).1 = (Frontend p s).1 ∧
    (Frontends (Frontends p s).2 s).1 = (Frontends p s).1 ∧
    (Backend (Backend p s).2 s).1 = (Backend p s).1 ∧
    (Backends (Backends p s).2 s).1 = (Backends p s).1 := by
  have hnd₁ : (keysOf es₁).Nodup := (h₁.map Prod.fst).nodup_iff.2 m.nodup
  refine ⟨fun k => ?_, fun k => ?_, rfl, rfl, rfl, rfl⟩
  · exact findInMapLoop_get_perm es₁ es₂ (h₁.trans h₂.symm) hnd₁ s strict k
  · exact findInMapLoop_get_perm es₁ m.entries h₁ hnd₁ s strict k

theorem query_results_do_not_depend_on_order_witness :
    ([("be_b".toList, ["y".toList]), ("be_a".toList, ["x".toList])] : List (Str × List Str)).Perm
      (parseText "backend be_a\nx\nbackend be_b\ny\n".toList).BackendSection.entries ∧
    ([("be_a".toList, ["x".toList]), ("be_b".toList, ["y".toList])] : List (Str × List Str)).Perm
      (parseText "backend be_a\nx\nbackend be_b\ny\n".toList).BackendSection.entries ∧
    (∀ k, (findInMapLoop [("be_b".toList, ["y".toList]), ("be_a".toList, ["x".toList])]
        "be_".toList false GoMap.empty).get k =
      (findInMapLoop [("be_a".toList, ["x".toList]), ("be_b".toList, ["y".toList])]
        "be_".toList false GoMap.empty).get k) :=
  have h₁ : ([("be_b".toList, ["y".toList]), ("be_a".toList, ["x".toList])] :
      List (Str × List Str)).Perm
      (parseText "backend be_a\nx\nbackend be_b\ny\n".toList).BackendSection.entries :=
    List.Perm.swap _ _ _
  have h₂ : ([("be_a".toList, ["x".toList]), ("be_b".toList, ["y".toList])] :
      List (Str × List Str)).Perm
      (parseText "backend be_a\nx\nbackend be_b\ny\n".toList).BackendSection.entries :=
    List.Perm.refl _
  ⟨h₁, h₂,
    (query_results_do_not_depend_on_order
      (parseText "backend be_a\nx\nbackend be_b\ny\n".toList)
      (parseText "backend be_a\nx\nbackend be_b\ny\n".toList).BackendSection
      _ _ "be_".toList false h₁ h₂).1⟩

/-! ## Failures of the input source -/

/-- With enough fuel the loop of `Parse` processes the newline-terminated
lines of the data the file delivers, and then returns the error of the file
unless it is `io.EOF`. -/
theorem parseLoop_final (fuel : Nat) (st : ParseState) (c : Str) (e : Error)
    (h : c.length < fuel) :
    parseLoop fuel st ⟨c, e⟩ =
      ((terminatedLines c).foldl parseLine st, if e ≠ Error.EOF then some e else none) := by
  induction fuel generalizing st c with
  | zero => omega
  | succ n ih =>
    unfold parseLoop ReadString
    cases hs : splitDelim '\n' [] c with
    | none =>
      have := splitDelim_none [] c hs
      simp only [terminatedLines, this, List.foldl_nil]
      split_ifs <;> rfl
    | some lr =>
      obtain ⟨line, rest⟩ := lr
      obtain ⟨l, h1, h2, h3⟩ := splitDelim_some [] c line rest hs
      simp only [terminatedLines, h2, List.foldl_cons]
      rw [ih _ rest (by omega), h1, parseLine_newline]
      rfl

theorem Parse_open_error (fs : FileSystem) (p : ConfigParser) (err : Error)
    (h : fs p.ConfigPath = Except.error err) : Parse fs p = (p, some err) := by
  simp [Parse, h]

theorem Parse_opened (fs : FileSystem) (p : ConfigParser) (data : Str) (e : Error)
    (h : fs p.ConfigPath = Except.ok ⟨data, e⟩) :
    Parse fs p =
      (((terminatedLines data).foldl parseLine ⟨p, [], []⟩).p,
        if e ≠ Error.EOF then some e else none) := by
  simp only [Parse, h]
  rw [parseLoop_final _ _ _ _ (Nat.lt_succ_self _)]

/-- C12 (as stated, refuted): when the file delivers `global`, `maxconn 1`
as two newline-terminated lines and the next read fails, `Parse` on a fresh
parser returns the error of the read, and `GlobalSection` holds the line
`maxconn 1` that was read before the failure. -/
theorem read_failure_leaves_partial_document :
    (Parse (fun _ => Except.ok ⟨"global\nmaxconn 1\n".toList, Error.other 5⟩)
      (NewConfigParser [])).2 = some (Error.other 5) ∧
    (Parse (fun _ => Except.ok ⟨"global\nmaxconn 1\n".toList, Error.other 5⟩)
      (NewConfigParser [])).1.GlobalSection = ["maxconn 1".toList] ∧
    (Parse (fun _ => Except.ok ⟨"global\nmaxconn 1\n".toList, Error.other 5⟩)
      (NewConfigParser [])).1.GlobalSection ≠ (NewConfigParser []).GlobalSection := by
  decide

/-- C12 (amended): `Parse` returns the error of the input source.  When the
file cannot be opened, the parser is unchanged.  When a read fails after the
file has delivered `data`, `Parse` returns the error of the read and leaves
the parser that a successful `Parse` of a file with content `data` leaves:
the lines read before the failure stay in the collections.  When the file is
read to its end, no error is returned. -/
theorem parse_error_paths (fs : FileSystem) (p : ConfigParser) :
    (∀ err, fs p.ConfigPath = Except.error err → Parse fs p = (p, some err)) ∧
    (∀ data code, fs p.ConfigPath = Except.ok ⟨data, Error.other code⟩ →
      Parse fs p = ((Parse (readable data) p).1, some (Error.other code))) ∧
    (∀ data, fs p.ConfigPath = Except.ok ⟨data, Error.EOF⟩ → (Parse fs p).2 = none) := by
  refine ⟨fun err h => Parse_open_error fs p err h, fun data code h => ?_, fun data h => ?_⟩
  · rw [Parse_opened fs p data _ h, Parse_readable]
    simp
  · rw [Parse_opened fs p data _ h]
    simp

theorem parse_error_paths_witness :
    ((fun _ => Except.error (Error.other 2) : FileSystem) (NewConfigParser []).ConfigPath =
        Except.error (Error.other 2) ∧
      Parse (fun _ => Except.error (Error.other 2)) (NewConfigParser []) =
        (NewConfigParser [], some (Error.other 2))) ∧
    ((fun _ => Except.ok ⟨"global\nmaxconn 1\nbroken".toList, Error.other 5⟩ : FileSystem)
        (NewConfigParser []).ConfigPath =
        Except.ok ⟨"global\nmaxconn 1\nbroken".toList, Error.other 5⟩ ∧
      Parse (fun _ => Except.ok ⟨"global\nmaxconn 1\nbroken".toList, Error.other 5⟩)
          (NewConfigParser []) =
        ((Parse (readable "global\nmaxconn 1\nbroken".toList) (NewConfigParser [])).1,
          some (Error.other 5))) ∧
    ((readable "global\n".toList) (NewConfigParser []).ConfigPath =
        Except.ok ⟨"global\n".toList, Error.EOF⟩ ∧
      (Parse (readable "global\n".toList) (NewConfigParser [])).2 = none) :=
  ⟨⟨rfl, (parse_error_paths _ _).1 _ rfl⟩,
    ⟨rfl, (parse_error_paths _ _).2.1 _ _ rfl⟩,
    ⟨rfl, (parse_error_paths _ _).2.2 _ rfl⟩⟩

/-! ## Header lines -/

theorem contentAt_routeLine_header (ty' : SectionType) (n : Str) (st : ParseState) (t : Str)
    (ty : SectionType) (h : headerType t = some ty) :
    contentAt ty' n (routeLine st t).p = contentAt ty' n st.p := by
  unfold routeLine
  rw [h]
  cases ty with
  | global => rfl
  | defaults => rfl
  | frontend =>
    cases headerName t with
    | none => rfl
    | some m => exact contentAt_openFrontend ty' n st m
  | backend =>
    cases headerName t with
    | none => rfl
    | some m => exact contentAt_openBackend ty' n st m

theorem rdropWhile_append_rest (q : Char → Bool) (l : Str) :
    ∃ post, l = l.rdropWhile q ++ post ∧ ∀ x ∈ post, q x = true := by
  induction l using List.reverseRecOn with
  | nil => exact ⟨[], by simp, by simp⟩
  | append_singleton l a ih =>
    by_cases ha : q a = true
    · obtain ⟨post, h1, h2⟩ := ih
      refine ⟨post ++ [a], ?_, ?_⟩
      · rw [List.rdropWhile_concat_pos _ _ _ ha, ← List.append_assoc, ← h1]
      · intro x hx
        rcases List.mem_append.1 hx with hx | hx
        · exact h2 x hx
        · simp at hx; rw [hx]; exact ha
    · exact ⟨[], by rw [List.rdropWhile_concat_neg _ _ _ ha]; simp, by simp⟩

/-- The result of `TrimSpace` is the string without a prefix and a suffix
made of white space; nothing inside it is changed. -/
theorem TrimSpace_decomposition (s : Str) :
    ∃ pre post, s = pre ++ TrimSpace s ++ post ∧
      pre.all isSpace = true ∧ post.all isSpace = true := by
  obtain ⟨post, h1, h2⟩ := rdropWhile_append_rest isSpace (s.dropWhile isSpace)
  refine ⟨s.takeWhile isSpace, post, ?_, ?_, ?_⟩
  · rw [TrimSpace_eq, List.append_assoc, ← h1, List.takeWhile_append_dropWhile]
  · rw [List.all_eq_true]
    intro x hx
    exact List.mem_takeWhile_imp hx
  · rw [List.all_eq_true]
    exact h2

theorem TrimSpace_head_not_space (s : Str) (a : Char) (h : (TrimSpace s).head? = some a) :
    isSpace a = false := by
  rcases TrimSpace_cases s with ⟨_, h2⟩ | ⟨b, r, _, hb, h3⟩
  · rw [h2] at h
    simp at h
  · rw [h3] at h
    simp at h
    rw [← h]
    exact hb

theorem TrimSpace_last_not_space (s : Str) (a : Char) (h : (TrimSpace s).getLast? = some a) :
    isSpace a = false := by
  have hne : (s.dropWhile isSpace).rdropWhile isSpace ≠ [] := by
    intro e
    rw [TrimSpace_eq, e] at h
    simp at h
  have hlast := List.rdropWhile_last_not (p := isSpace) (l := s.dropWhile isSpace) hne
  rw [TrimSpace_eq, List.getLast?_eq_getLast _ hne] at h
  injection h with h
  rw [← h]
  simpa using hlast

theorem not_skipped_iff (l : Str) :
    isSkippedLine l = false ↔
      TrimSpace l ≠ [] ∧ HasPrefix (TrimSpace l) commentChar = false := by
  constructor
  · intro h
    have h' : ¬ ((HasPrefix (TrimSpace l) commentChar || TrimSpace l == []) = true) := by
      rw [← isSkippedLine_iff, h]
      simp
    simp only [Bool.or_eq_true, beq_iff_eq, not_or] at h'
    exact ⟨h'.2, by simpa using h'.1⟩
  · intro h
    cases hs : isSkippedLine l with
    | false => rfl
    | true =>
      rw [isSkippedLine_iff] at hs
      simp only [Bool.or_eq_true, beq_iff_eq] at hs
      rcases hs with hs | hs
      · rw [h.2] at hs; exact absurd hs (by simp)
      · exact absurd hs h.1

/-- C16: for every input parsed by a fresh parser, every line stored in one
of the four collections is the trimmed form of a newline-terminated input
line: that line is the stored line between a prefix and a suffix of white
space, so the inside of the line is unchanged.  Every stored line is
non-empty, neither begins nor ends with white space, and does not start with
`#`.  The input line `  tcp-request  inspect-delay 5s` is stored as
`tcp-request  inspect-delay 5s`. -/
theorem stored_lines_are_trimmed_input_lines :
    (∀ c : Str, AllStored (fun l =>
        (∃ raw ∈ terminatedLines c, l = TrimSpace raw ∧
          ∃ pre post, raw = pre ++ l ++ post ∧
            pre.all isSpace = true ∧ post.all isSpace = true) ∧
        l ≠ [] ∧
        (∀ a, l.head? = some a → isSpace a = false) ∧
        (∀ a, l.getLast? = some a → isSpace a = false) ∧
        HasPrefix l commentChar = false) (parseText c)) ∧
    (parseText
        "frontend public_ssl\n  tcp-request  inspect-delay 5s\n".toList).FrontendSection.get
      "public_ssl".toList = some ["tcp-request  inspect-delay 5s".toList] := by
  refine ⟨fun c => ?_, by decide⟩
  rw [parseText_eq]
  apply foldl_allStored
  · exact allStored_new _ _
  · intro l hl hs _
    have hns := (not_skipped_iff l).1 hs
    exact ⟨⟨l, hl, rfl, TrimSpace_decomposition l⟩, hns.1,
      TrimSpace_head_not_space l, TrimSpace_last_not_space l, hns.2⟩

/-! ## The text after the last newline character -/

theorem rdropWhile_append_all (q : Char → Bool) (x t : Str) (h : ∀ a ∈ t, q a = true) :
    (x ++ t).rdropWhile q = x.rdropWhile q := by
  induction t using List.reverseRecOn with
  | nil => simp
  | append_singleton t a ih =>
    rw [← List.append_assoc, List.rdropWhile_concat_pos _ _ _ (h a (by simp))]
    exact ih (fun b hb => h b (List.mem_append_left _ hb))

theorem joinLines_getLast? (ls : List Str) (a : Char)
    (h : (joinLines ls).getLast? = some a) : a = '\n' := by
  induction ls generalizing a with
  | nil => simp [joinLines] at h
  | cons l ls ih =>
    simp only [joinLines, List.getLast?_append, List.getLast?_cons] at h
    cases hl : (joinLines ls).getLast? with
    | none =>
      rw [hl] at h
      simp at h
      exact h.symm
    | some b =>
      rw [hl] at h
      simp at h
      rw [← h]
      exact ih b hl

theorem truncate_joinLines (ls : List Str) (tail : Str) (htail : '\n' ∉ tail) :
    truncateAfterLastNewline (joinLines ls ++ tail) = joinLines ls := by
  unfold truncateAfterLastNewline
  rw [rdropWhile_append_all]
  · rw [List.rdropWhile_eq_self_iff]
    intro hl
    have := joinLines_getLast? ls _ (List.getLast?_eq_getLast _ hl)
    rw [this]
    simp
  · intro a ha
    have : a ≠ '\n' := fun e => htail (e ▸ ha)
    simpa using this

theorem terminatedLines_truncate (c : Str) :
    terminatedLines (truncateAfterLastNewline c) = terminatedLines c := by
  obtain ⟨ls, tail, hc, hls, htail⟩ := text_decomposition c
  have h1 := terminatedLines_joinLines ls tail hls
  have h2 := terminatedLines_joinLines ls [] hls
  rw [hc, truncate_joinLines ls tail htail, h1]
  simp only [List.append_nil] at h2
  rw [h2]
  simp [terminatedLines, terminatedLinesAux_noNewline [] tail htail, terminatedLinesAux]

/-- C18: `Parse` only processes the newline-terminated lines.  For every
file content `c` and every parser, `Parse` on `c` leaves the same parser and
returns the same error value as `Parse` on `c` truncated just after its last
newline character; on a content without any newline character it leaves the
parser as it was, so a fresh parser keeps its four collections empty.  In
`global`, `maxconn 1`, `frontend x` without a final newline the last line
opens no frontend; in `global`, `maxconn 1` the last line is not stored. -/
theorem unterminated_last_line_is_ignored :
    (∀ (c : Str) (p : ConfigParser),
      Parse (readable c) p = Parse (readable (truncateAfterLastNewline c)) p ∧
      ('\n' ∉ c → Parse (readable c) p = (p, none))) ∧
    truncateAfterLastNewline "global\nmaxconn 1\nfrontend x".toList =
      "global\nmaxconn 1\n".toList ∧
    (parseText "global\nmaxconn 1\nfrontend x".toList).GlobalSection =
      ["maxconn 1".toList] ∧
    (parseText "global\nmaxconn 1\nfrontend x".toList).FrontendSection.entries = [] ∧
    (parseText "global\nmaxconn 1".toList).GlobalSection = [] := by
  refine ⟨fun c p => ⟨?_, ?_⟩, by decide, by decide, by decide, by decide⟩
  · rw [Parse_readable, Parse_readable, terminatedLines_truncate]
  · intro h
    rw [Parse_readable]
    simp [terminatedLines, terminatedLinesAux_noNewline [] c h]

theorem unterminated_last_line_is_ignored_witness :
    '\n' ∉ "global".toList ∧
    Parse (readable "global".toList) (NewConfigParser []) = (NewConfigParser [], none) :=
  ⟨by decide, (unterminated_last_line_is_ignored.1 _ _).2 (by decide)⟩

/-! ## The keys of the maps -/

theorem hasPrefix_of_headerType (t : Str) :
    (headerType t = some SectionType.frontend → HasPrefix t frontendKeyword = true) ∧
    (headerType t = some SectionType.backend → HasPrefix t backendKeyword = true) := by
  unfold headerType
  constructor <;> intro h <;> split_ifs at h <;> simp_all

theorem fieldsAux_ne_nil (cur s : Str) : ∀ w ∈ fieldsAux cur s, w ≠ [] := by
  induction s generalizing cur with
  | nil =>
    intro w hw
    unfold fieldsAux at hw
    split_ifs at hw with hc
    · simp at hw
    · simp only [List.mem_singleton] at hw
      rw [hw]
      intro e
      apply hc
      simpa using e
  | cons c s ih =>
    intro w hw
    unfold fieldsAux at hw
    split_ifs at hw with h1 h2
    · exact ih [] w hw
    · rcases List.mem_cons.1 hw with hw | hw
      · rw [hw]
        intro e
        apply h2
        simpa using e
      · exact ih [] w hw
    · exact ih (c :: cur) w hw

theorem headerName_ne_nil (t k : Str) (h : headerName t = some k) : k ≠ [] := by
  apply fieldsAux_ne_nil [] t
  unfold headerName at h
  exact List.get?_mem h

theorem presentAt_routeLine (ty : SectionType) (hty : ty = SectionType.frontend ∨
    ty = SectionType.backend) (k : Str) (st : ParseState) (t : Str) :
    presentAt ty k (routeLine st t).p =
      (presentAt ty k st.p ||
        (match headerType t with
         | none => decide (sectionOfKeyword st.currSection = some ty ∧ st.currSubsection = k)
         | some ty' => decide (ty' = ty ∧ headerName t = some k))) := by
  unfold routeLine
  cases ht : headerType t with
  | none => exact presentAt_storeLine ty hty k st t
  | some ty' =>
    cases ty' with
    | global => rcases hty with rfl | rfl <;> simp
    | defaults => rcases hty with rfl | rfl <;> simp
    | frontend =>
      cases hn : headerName t with
      | none => rcases hty with rfl | rfl <;> simp
      | some m =>
        simp only [presentAt_openFrontend]
        rcases hty with rfl | rfl <;> simp
    | backend =>
      cases hn : headerName t with
      | none => rcases hty with rfl | rfl <;> simp
      | some m =>
        simp only [presentAt_openBackend]
        rcases hty with rfl | rfl <;> simp

theorem presentAt_named (ty : SectionType) (k : Str) (p : ConfigParser)
    (h : presentAt ty k p = true) : ty = SectionType.frontend ∨ ty = SectionType.backend := by
  cases ty with
  | global => simp [presentAt] at h
  | defaults => simp [presentAt] at h
  | frontend => exact Or.inl rfl
  | backend => exact Or.inr rfl

theorem parseLine_not_skipped (st : ParseState) (l : Str) (h : isSkippedLine l = false) :
    parseLine st l = routeLine st (TrimSpace l) := by
  rw [parseLine_eq]
  simp only [h, Bool.false_eq_true, if_false]
  rfl

theorem routeLine_keysAnnounced (L : List Str) (st : ParseState) (l : Str) (hl : l ∈ L)
    (hnamed : ∀ ty, (ty = SectionType.frontend ∨ ty = SectionType.backend) →
      headerType (TrimSpace l) = some ty → headerName (TrimSpace l) ≠ none)
    (hinv : KeysAnnounced L st) : KeysAnnounced L (routeLine st (TrimSpace l)) := by
  constructor
  · intro ty k hp
    have hty := presentAt_named ty k _ hp
    rw [presentAt_routeLine ty hty, Bool.or_eq_true] at hp
    rcases hp with hp | hp
    · exact hinv.1 ty k hp
    · cases ht : headerType (TrimSpace l) with
      | none =>
        rw [ht] at hp
        simp only [decide_eq_true_eq] at hp
        rw [← hp.2]
        exact hinv.2 ty hty hp.1
      | some ty' =>
        rw [ht] at hp
        simp only [decide_eq_true_eq] at hp
        exact ⟨l, hl, by rw [ht, hp.1], hp.2⟩
  · intro ty hty hsec
    cases ht : headerType (TrimSpace l) with
    | none =>
      simp only [routeLine, ht, storeLine_currSection, storeLine_currSubsection] at hsec ⊢
      exact hinv.2 ty hty hsec
    | some ty' =>
      cases ty' with
      | global =>
        simp only [routeLine, ht, sectionOfKeyword_global] at hsec
        rcases hty with rfl | rfl <;> simp at hsec
      | defaults =>
        simp only [routeLine, ht, sectionOfKeyword_defaults] at hsec
        rcases hty with rfl | rfl <;> simp at hsec
      | frontend =>
        cases hn : headerName (TrimSpace l) with
        | none => exact absurd hn (hnamed _ (Or.inl rfl) ht)
        | some m =>
          simp only [routeLine, ht, hn, openFrontend_currSection,
            openFrontend_currSubsection, sectionOfKeyword_frontend] at hsec ⊢
          injection hsec with hsec
          rw [← hsec]
          exact ⟨l, hl, ht, hn⟩
      | backend =>
        cases hn : headerName (TrimSpace l) with
        | none => exact absurd hn (hnamed _ (Or.inr rfl) ht)
        | some m =>
          simp only [routeLine, ht, hn, openBackend_currSection,
            openBackend_currSubsection, sectionOfKeyword_backend] at hsec ⊢
          injection hsec with hsec
          rw [← hsec]
          exact ⟨l, hl, ht, hn⟩

theorem foldl_keysAnnounced (L ls : List Str) (st : ParseState) (hsub : ∀ l ∈ ls, l ∈ L)
    (hnamed : ∀ l ∈ L, ∀ ty, (ty = SectionType.frontend ∨ ty = SectionType.backend) →
      headerType (TrimSpace l) = some ty → headerName (TrimSpace l) ≠ none)
    (hinv : KeysAnnounced L st) : KeysAnnounced L (ls.foldl parseLine st) := by
  induction ls generalizing st with
  | nil => exact hinv
  | cons l ls ih =>
    simp only [List.foldl_cons]
    apply ih _ (fun l' hl' => hsub l' (List.mem_cons_of_mem _ hl'))
    have hl := hsub l (List.mem_cons_self _ _)
    cases hs : isSkippedLine l with
    | true => rw [parseLine_skipped st l hs]; exact hinv
    | false =>
      rw [parseLine_not_skipped st l hs]
      exact routeLine_keysAnnounced L st l hl (hnamed l hl) hinv

theorem keysAnnounced_init (L : List Str) : KeysAnnounced L initState := by
  constructor
  · intro ty k hp
    cases ty <;> simp [presentAt, initState, NewConfigParser, GoMap.get_empty] at hp
  · intro ty _ hsec
    simp [initState, sectionOfKeyword, globalKeyword, defaultsKeyword, frontendKeyword,
      backendKeyword] at hsec

/-- C19: if every newline-terminated input line whose trimmed text starts
with `frontend` or `backend` has at least two white-space separated tokens,
then after `Parse` on a fresh parser every key of `FrontendSection` is the
second token of an input line whose trimmed text starts with `frontend`, and
every key of `BackendSection` is the second token of an input line whose
trimmed text starts with `backend`; no key is the empty name. -/
theorem keys_are_names_of_header_lines (c : Str)
    (h : ∀ l ∈ terminatedLines c,
      (HasPrefix (TrimSpace l) frontendKeyword = true ∨
        HasPrefix (TrimSpace l) backendKeyword = true) →
      (Fields (TrimSpace l)).length ≥ 2) :
    (∀ k ∈ (parseText c).FrontendSection.keys,
      k ≠ [] ∧ ∃ l ∈ terminatedLines c,
        HasPrefix (TrimSpace l) frontendKeyword = true ∧
          (Fields (TrimSpace l)).get? 1 = some k) ∧
    (∀ k ∈ (parseText c).BackendSection.keys,
      k ≠ [] ∧ ∃ l ∈ terminatedLines c,
        HasPrefix (TrimSpace l) backendKeyword = true ∧
          (Fields (TrimSpace l)).get? 1 = some k) := by
  have hnamed : ∀ l ∈ terminatedLines c, ∀ ty,
      (ty = SectionType.frontend ∨ ty = SectionType.backend) →
      headerType (TrimSpace l) = some ty → headerName (TrimSpace l) ≠ none := by
    intro l hl ty hty ht
    have hlen : (Fields (TrimSpace l)).length ≥ 2 := by
      apply h l hl
      rcases hty with rfl | rfl
      · exact Or.inl ((hasPrefix_of_headerType _).1 ht)
      · exact Or.inr ((hasPrefix_of_headerType _).2 ht)
    rw [headerName_eq]
    have : (Fields (TrimSpace l)).length > 1 := hlen
    simp [this]
  have hinv := foldl_keysAnnounced (terminatedLines c) (terminatedLines c) initState
    (fun _ hl => hl) hnamed (keysAnnounced_init _)
  rw [parseText_eq]
  constructor
  · intro k hk
    rw [GoMap.mem_keys_iff] at hk
    obtain ⟨l, hl, ht, hn⟩ := hinv.1 SectionType.frontend k hk
    exact ⟨headerName_ne_nil _ k hn, l, hl, (hasPrefix_of_headerType _).1 ht, hn⟩
  · intro k hk
    rw [GoMap.mem_keys_iff] at hk
    obtain ⟨l, hl, ht, hn⟩ := hinv.1 SectionType.backend k hk
    exact ⟨headerName_ne_nil _ k hn, l, hl, (hasPrefix_of_headerType _).2 ht, hn⟩

theorem keys_are_names_of_header_lines_witness :
    (∀ l ∈ terminatedLines "frontend fe\nbind :80\nglobal\nbackend be\nserver s\n".toList,
      (HasPrefix (TrimSpace l) frontendKeyword = true ∨
        HasPrefix (TrimSpace l) backendKeyword = true) →
      (Fields (TrimSpace l)).length ≥ 2) ∧
    (parseText "frontend fe\nbind :80\nglobal\nbackend be\nserver s\n".toList).FrontendSection.keys =
      ["fe".toList] ∧
    (∀ k ∈ (parseText
        "frontend fe\nbind :80\nglobal\nbackend be\nserver s\n".toList).FrontendSection.keys,
      k ≠ [] ∧ ∃ l ∈ terminatedLines
          "frontend fe\nbind :80\nglobal\nbackend be\nserver s\n".toList,
        HasPrefix (TrimSpace l) frontendKeyword = true ∧
          (Fields (TrimSpace l)).get? 1 = some k) :=
  ⟨by decide, by decide, (keys_are_names_of_header_lines _ (by decide)).1⟩

/-! ## Counting the stored lines -/

theorem concatLines_setEntries_append (es : List (Str × List Str)) (k t : Str) :
    (concatLines ((setEntries es k ((lookupEntries es k).getD [] ++ [t])).map Prod.snd)).Perm
      (concatLines (es.map Prod.snd) ++ [t]) := by
  induction es with
  | nil => simp [setEntries, lookupEntries, concatLines]
  | cons e rest ih =>
    obtain ⟨k', v'⟩ := e
    by_cases h : k' = k
    · simp only [setEntries, lookupEntries, h, if_true, Option.getD_some, List.map_cons,
        concatLines, List.append_assoc]
      exact List.Perm.append_left _ List.perm_append_comm
    · simp only [setEntries, lookupEntries, h, if_false, List.map_cons, concatLines,
        List.append_assoc]
      exact List.Perm.append_left _ ih

theorem concatLines_setEntries_nil (es : List (Str × List Str)) (k : Str)
    (h : lookupEntries es k = none) :
    concatLines ((setEntries es k []).map Prod.snd) = concatLines (es.map Prod.snd) := by
  induction es with
  | nil => simp [setEntries, concatLines]
  | cons e rest ih =>
    obtain ⟨k', v'⟩ := e
    by_cases hk : k' = k
    · simp [lookupEntries, hk] at h
    · simp only [lookupEntries, hk, if_false] at h
      simp only [setEntries, hk, if_false, List.map_cons, concatLines, ih h]

theorem allLines_set_append (m : GoMap) (k t : Str) :
    (m.set k (m.index k ++ [t])).allLines.Perm (m.allLines ++ [t]) := by
  rw [GoMap.index_eq]
  exact concatLines_setEntries_append m.entries k t

theorem allLines_set_nil (m : GoMap) (k : Str) (h : (m.index2 k).2 = false) :
    (m.set k []).allLines = m.allLines := by
  apply concatLines_setEntries_nil
  rw [GoMap.index2_eq] at h
  cases hg : m.get k with
  | none => exact hg
  | some v => rw [hg] at h; simp at h

theorem perm_insert_middle (a b : List Str) (t : Str) :
    (a ++ [t] ++ b).Perm (a ++ b ++ [t]) := by
  have e : a ++ [t] ++ b = a ++ t :: b := by simp
  rw [e]
  exact List.perm_middle.trans (List.perm_append_singleton t (a ++ b)).symm

theorem storedLines_storeLine (st : ParseState) (t : Str)
    (h : (sectionOfKeyword st.currSection).isSome = true) :
    (storedLines (storeLine st t).p).Perm (storedLines st.p ++ [t]) := by
  rw [storeLine_eq]
  cases hsec : sectionOfKeyword st.currSection with
  | none => rw [hsec] at h; simp at h
  | some ty =>
    cases ty with
    | global =>
      have e1 : storedLines
          { st.p with GlobalSection := st.p.GlobalSection ++ [t] } =
          st.p.GlobalSection ++ [t] ++
            (st.p.DefaultsSection ++ st.p.FrontendSection.allLines ++
              st.p.BackendSection.allLines) := by
        simp [storedLines]
      have e2 : storedLines st.p ++ [t] =
          st.p.GlobalSection ++
            (st.p.DefaultsSection ++ st.p.FrontendSection.allLines ++
              st.p.BackendSection.allLines) ++ [t] := by
        simp [storedLines]
      show (storedLines { st.p with GlobalSection := st.p.GlobalSection ++ [t] }).Perm _
      rw [e1, e2]
      exact perm_insert_middle _ _ t
    | defaults =>
      have e1 : storedLines
          { st.p with DefaultsSection := st.p.DefaultsSection ++ [t] } =
          st.p.GlobalSection ++ st.p.DefaultsSection ++ [t] ++
            (st.p.FrontendSection.allLines ++ st.p.BackendSection.allLines) := by
        simp [storedLines]
      have e2 : storedLines st.p ++ [t] =
          st.p.GlobalSection ++ st.p.DefaultsSection ++
            (st.p.FrontendSection.allLines ++ st.p.BackendSection.allLines) ++ [t] := by
        simp [storedLines]
      show (storedLines { st.p with DefaultsSection := st.p.DefaultsSection ++ [t] }).Perm _
      rw [e1, e2]
      exact perm_insert_middle _ _ t
    | frontend =>
      have hp := allLines_set_append st.p.FrontendSection st.currSubsection t
      have e2 : storedLines st.p ++ [t] =
          st.p.GlobalSection ++ st.p.DefaultsSection ++ st.p.FrontendSection.allLines ++
            st.p.BackendSection.allLines ++ [t] := rfl
      show (st.p.GlobalSection ++ st.p.DefaultsSection ++
        (st.p.FrontendSection.set st.currSubsection
          (st.p.FrontendSection.index st.currSubsection ++ [t])).allLines ++
        st.p.BackendSection.allLines).Perm _
      rw [e2]
      exact (((hp.append_left _).append_right _).trans
        (by rw [← List.append_assoc]; exact perm_insert_middle _ _ t))
    | backend =>
      have hp := allLines_set_append st.p.BackendSection st.currSubsection t
      show (st.p.GlobalSection ++ st.p.DefaultsSection ++ st.p.FrontendSection.allLines ++
        (st.p.BackendSection.set st.currSubsection
          (st.p.BackendSection.index st.currSubsection ++ [t])).allLines).Perm _
      have e2 : storedLines st.p ++ [t] =
          st.p.GlobalSection ++ st.p.DefaultsSection ++ st.p.FrontendSection.allLines ++
            (st.p.BackendSection.allLines ++ [t]) := by
        simp [storedLines]
      rw [e2]
      exact hp.append_left _

theorem storedLines_openFrontend (st : ParseState) (n : Str) :
    storedLines (openFrontend st n).p = storedLines st.p := by
  simp only [storedLines, openFrontend]
  split_ifs with h
  · rfl
  · rw [allLines_set_nil _ _ (by simpa using h)]

theorem storedLines_openBackend (st : ParseState) (n : Str) :
    storedLines (openBackend st n).p = storedLines st.p := by
  simp only [storedLines, openBackend]
  split_ifs with h
  · rfl
  · rw [allLines_set_nil _ _ (by simpa using h)]

theorem routeLine_header_step (st : ParseState) (t : Str) (ty : SectionType)
    (h : headerType t = some ty) :
    storedLines (routeLine st t).p = storedLines st.p ∧
      (sectionOfKeyword (routeLine st t).currSection).isSome = true := by
  unfold routeLine
  rw [h]
  cases ty with
  | global => exact ⟨rfl, by simp [sectionOfKeyword_global]⟩
  | defaults => exact ⟨rfl, by simp [sectionOfKeyword_defaults]⟩
  | frontend =>
    cases headerName t with
    | none => exact ⟨rfl, by simp [sectionOfKeyword_frontend]⟩
    | some m =>
      exact ⟨storedLines_openFrontend st m,
        by simp [openFrontend_currSection, sectionOfKeyword_frontend]⟩
  | backend =>
    cases headerName t with
    | none => exact ⟨rfl, by simp [sectionOfKeyword_backend]⟩
    | some m =>
      exact ⟨storedLines_openBackend st m,
        by simp [openBackend_currSection, sectionOfKeyword_backend]⟩

theorem isContentLine_cases (l : Str) :
    (isSkippedLine l = true ∧ isContentLine l = false) ∨
    (isSkippedLine l = false ∧ (headerType (TrimSpace l)).isSome = true ∧
      isContentLine l = false) ∨
    (isSkippedLine l = false ∧ headerType (TrimSpace l) = none ∧ isContentLine l = true) := by
  unfold isContentLine isHeaderLine
  cases hs : isSkippedLine l with
  | true => left; simp
  | false =>
    right
    cases hh : headerType (TrimSpace l) with
    | none => right; simp
    | some ty => left; simp

/-- Once a section is open, the loop stores each content line exactly once. -/
theorem foldl_storedLines_open (ls : List Str) (st : ParseState)
    (h : (sectionOfKeyword st.currSection).isSome = true) :
    (storedLines (ls.foldl parseLine st).p).Perm
      (storedLines st.p ++ (ls.filter isContentLine).map TrimSpace) := by
  induction ls generalizing st with
  | nil => simp
  | cons l ls ih =>
    simp only [List.foldl_cons, List.filter_cons]
    rcases isContentLine_cases l with ⟨hs, hc⟩ | ⟨hs, hh, hc⟩ | ⟨hs, hh, hc⟩
    · rw [parseLine_skipped st l hs, hc]
      exact ih st h
    · rw [parseLine_not_skipped st l hs, hc]
      obtain ⟨ty, hty⟩ := Option.isSome_iff_exists.1 hh
      obtain ⟨h1, h2⟩ := routeLine_header_step st (TrimSpace l) ty hty
      have := ih _ h2
      rw [h1] at this
      exact this
    · rw [parseLine_not_skipped st l hs, hc]
      have hr : routeLine st (TrimSpace l) = storeLine st (TrimSpace l) := by
        unfold routeLine
        rw [hh]
      rw [hr]
      have h2 : (sectionOfKeyword (storeLine st (TrimSpace l)).currSection).isSome = true := by
        rw [storeLine_currSection]
        exact h
      refine (ih _ h2).trans ?_
      simp only [if_true, List.map_cons]
      refine ((storedLines_storeLine st (TrimSpace l) h).append_right _).trans ?_
      simp

theorem dropWhile_not_header_cases (ls : List Str) :
    ls.dropWhile (fun l => !isHeaderLine l) = [] ∨
    ∃ h rest, ls.dropWhile (fun l => !isHeaderLine l) = h :: rest ∧ isHeaderLine h = true := by
  induction ls with
  | nil => left; rfl
  | cons l ls ih =>
    by_cases hl : isHeaderLine l = true
    · right
      exact ⟨l, ls, by simp [List.dropWhile, hl], hl⟩
    · have hl' : isHeaderLine l = false := by simpa using hl
      simp only [List.dropWhile, hl', Bool.not_false]
      exact ih

theorem isContentLine_eq :
    (fun l : Str => !(TrimSpace l == []) && !HasPrefix (TrimSpace l) commentChar &&
      !isHeaderLine l) = isContentLine := by
  funext l
  have hs : isSkippedLine l = (HasPrefix (TrimSpace l) commentChar || TrimSpace l == []) := by
    rw [Bool.eq_iff_iff]
    exact isSkippedLine_iff l
  simp only [isContentLine, hs]
  cases (TrimSpace l == []) <;> cases HasPrefix (TrimSpace l) commentChar <;> rfl

theorem length_concatLines (xs : List (List Str)) :
    (concatLines xs).length = (xs.map List.length).sum := by
  induction xs with
  | nil => rfl
  | cons x xs ih => simp [concatLines, ih]

theorem length_storedLines (p : ConfigParser) :
    (storedLines p).length =
      p.GlobalSection.length + p.DefaultsSection.length +
        (p.FrontendSection.entries.map (fun e => e.2.length)).sum +
        (p.BackendSection.entries.map (fun e => e.2.length)).sum := by
  simp only [storedLines, GoMap.allLines, length_concatLines, List.length_append, List.map_map,
    Function.comp_def]

theorem parseText_storedLines (c : Str) :
    (storedLines (parseText c)).Perm
      ((((terminatedLines c).dropWhile (fun l => !isHeaderLine l)).filter
        isContentLine).map TrimSpace) := by
  rw [parseText_eq, ← foldl_dropWhile_not_header (terminatedLines c) initState rfl]
  rcases dropWhile_not_header_cases (terminatedLines c) with h | ⟨hd, rest, h, hh⟩
  · rw [h]
    exact List.Perm.refl _
  · rw [h]
    have hs : isSkippedLine hd = false := headerType_isSome_not_skipped hd hh
    obtain ⟨ty, hty⟩ := Option.isSome_iff_exists.1 hh
    obtain ⟨h1, h2⟩ := routeLine_header_step initState (TrimSpace hd) ty hty
    have hc : isContentLine hd = false := by
      simp [isContentLine, hh]
    simp only [List.foldl_cons, List.filter_cons, hc, Bool.false_eq_true, if_false]
    rw [parseLine_not_skipped initState hd hs]
    have := foldl_storedLines_open rest _ h2
    rw [h1] at this
    exact this

/-- C20: for every input parsed by a fresh parser, the lines stored in
`GlobalSection`, `DefaultsSection` and the entries of `FrontendSection` and
`BackendSection`, taken together, are exactly the trimmed forms of the
newline-terminated input lines that come after the first header line and
that, after trimming, are non-empty, do not start with `#` and do not start
with a section keyword, each one stored once; the total number of stored
lines is the number of those input lines. -/
theorem content_lines_stored_exactly_once (c : Str) :
    (storedLines (parseText c)).Perm
      ((((terminatedLines c).dropWhile (fun l => !isHeaderLine l)).filter
        (fun l => !(TrimSpace l == []) && !HasPrefix (TrimSpace l) commentChar &&
          !isHeaderLine l)).map TrimSpace) ∧
    (parseText c).GlobalSection.length + (parseText c).DefaultsSection.length +
        ((parseText c).FrontendSection.entries.map (fun e => e.2.length)).sum +
        ((parseText c).BackendSection.entries.map (fun e => e.2.length)).sum =
      (((terminatedLines c).dropWhile (fun l => !isHeaderLine l)).filter
        (fun l => !(TrimSpace l == []) && !HasPrefix (TrimSpace l) commentChar &&
          !isHeaderLine l)).length := by
  rw [isContentLine_eq]
  refine ⟨parseText_storedLines c, ?_⟩
  rw [← length_storedLines, (parseText_storedLines c).length_eq, List.length_map]

/-! ## Newline-terminated lines are lines of the text -/

theorem terminatedLinesAux_subset (acc c : Str) :
    ∀ l ∈ terminatedLinesAux acc c, l ∈ textLinesAux acc c := by
  induction c generalizing acc with
  | nil => intro l hl; simp [terminatedLinesAux] at hl
  | cons a c ih =>
    intro l hl
    by_cases ha : a = '\n'
    · simp only [terminatedLinesAux, textLinesAux, ha, if_true, List.mem_cons] at hl ⊢
      rcases hl with hl | hl
      · exact Or.inl hl
      · exact Or.inr (ih [] l hl)
    · simp only [terminatedLinesAux, textLinesAux, ha, if_false] at hl ⊢
      exact ih _ l hl

/-- Every newline-terminated line of a text is one of its lines. -/
theorem terminatedLines_subset_textLines (c : Str) :
    ∀ l ∈ terminatedLines c, l ∈ textLines c :=
  terminatedLinesAux_subset [] c

end Haproxy
